import Mathlib

/-!
Verification of the PO-to-MO catalog compiler (tools/msgfmt.py).

The development shallowly embeds the four components of the compiler:
the escape decoder, the line-oriented PO parser, the catalog assembler
and the binary MO serializer.  Python strings are modelled as lists of
characters (a Python str is a sequence of Unicode code points), byte
streams as lists of natural numbers below 256, and fallible code as
Option-valued functions (a ValueError maps to none).
-/

namespace Msgfmt

/-- A Python string: a sequence of Unicode code points. -/
abbrev Str := List Char

/-- Shorthand turning a Lean string literal into the model type. -/
def S (s : String) : Str := s.data

/-- Whitespace characters recognised by the model of str.strip. -/
def isSpaceC (c : Char) : Bool :=
  c = ' ' || c = '\t' || c = '\n' || c = '\r' || c = Char.ofNat 11 || c = Char.ofNat 12

/-- Model of str.lstrip (with no argument): drop leading whitespace. -/
def lstripWs (s : Str) : Str := s.dropWhile isSpaceC

/-- Model of str.strip (with no argument): drop whitespace on both ends. -/
def stripWs (s : Str) : Str := ((s.dropWhile isSpaceC).reverse.dropWhile isSpaceC).reverse

/-- Model of str.startswith on the character-list representation. -/
def startsWithS : Str → Str → Bool
  | [], _ => true
  | _ :: _, [] => false
  | p :: ps, c :: cs => p = c && startsWithS ps cs

/-- Value of a character as a digit, if it is a valid digit below the
given base; models the digit handling of the Python int constructor on
the ASCII digit and letter ranges (0-9, a-z, A-Z by code point). -/
def digitVal (base : Nat) (c : Char) : Option Nat :=
  let v : Option Nat :=
    if 48 ≤ c.toNat ∧ c.toNat ≤ 57 then some (c.toNat - 48)
    else if 97 ≤ c.toNat ∧ c.toNat ≤ 122 then some (c.toNat - 97 + 10)
    else if 65 ≤ c.toNat ∧ c.toNat ≤ 90 then some (c.toNat - 65 + 10)
    else none
  match v with
  | some d => if d < base then some d else none
  | none => none

/-- Digit-run part of the Python int constructor: digits of the base,
with single underscores allowed between digits only (an underscore must
be followed by a digit, and cannot end the run). -/
def pyDigitsAux (base : Nat) (acc : Nat) : Str → Option Nat
  | [] => some acc
  | c :: rest =>
    if c = '_' then
      match rest with
      | [] => none
      | c2 :: rest2 =>
        match digitVal base c2 with
        | some d => pyDigitsAux base (acc * base + d) rest2
        | none => none
    else
      match digitVal base c with
      | some d => pyDigitsAux base (acc * base + d) rest
      | none => none

/-- Nonempty digit run that must not begin with an underscore. -/
def pyDigits (base : Nat) : Str → Option Nat
  | [] => none
  | c :: cs => if c = '_' then none else pyDigitsAux base 0 (c :: cs)

/-- Model of the Python int constructor on a string: optional
surrounding whitespace, optional single sign, then a digit run. -/
def pyIntOpt (base : Nat) (s : Str) : Option Int :=
  match stripWs s with
  | [] => (pyDigits base []).map Int.ofNat
  | c :: rest =>
    if c = '+' then (pyDigits base rest).map Int.ofNat
    else if c = '-' then (pyDigits base rest).map (fun n => -(Int.ofNat n : Int))
    else (pyDigits base (c :: rest)).map Int.ofNat

/-- Octal digit test, mirroring the regex class [0-7] by code point. -/
def isOctD (c : Char) : Bool := 48 ≤ c.toNat && c.toNat ≤ 55

/-- Hexadecimal digit test, mirroring the regex class [0-9a-fA-F] by
code point. -/
def isHexD (c : Char) : Bool :=
  (48 ≤ c.toNat && c.toNat ≤ 57) || (97 ≤ c.toNat && c.toNat ≤ 102) ||
    (65 ≤ c.toNat && c.toNat ≤ 70)

/-- Replacement for one matched escape group, mirroring repl inside
_unescape: named escapes map to their control character, an x-group is
read in base 16 and an octal group in base 8, both through the fallible
int conversion. -/
def replOfGroup (g : Str) : Option Str :=
  if g = ['n'] then some ['\n']
  else if g = ['t'] then some ['\t']
  else if g = ['r'] then some ['\r']
  else if g = ['\\'] then some ['\\']
  else if g = ['\"'] then some ['\"']
  else
    match g with
    | 'x' :: body => (pyIntOpt 16 body).map (fun n => [Char.ofNat n.toNat])
    | body => (pyIntOpt 8 body).map (fun n => [Char.ofNat n.toNat])

mutual

/-- Model of _ESCAPE_RE.sub(repl, value): scan left to right; a match
can only begin at a backslash; on a match emit the replacement and
continue after the match, otherwise copy one character.  unesc scans
with no pending backslash. -/
def unesc : Str → Option Str
  | [] => some []
  | '\\' :: rest => unescB rest
  | c :: rest => (unesc rest).map (fun t => c :: t)

/-- Scanning state directly after a backslash: the argument is the text
following the backslash.  The alternation order and the greedy one-to-
three digit octal group follow the regex; where no alternative matches
the backslash (and any character known not to begin a match) is copied
through unchanged. -/
def unescB : Str → Option Str
  | [] => some ['\\']
  | c1 :: rest1 =>
    if c1 = 'n' then (unesc rest1).map (fun t => '\n' :: t)
    else if c1 = 't' then (unesc rest1).map (fun t => '\t' :: t)
    else if c1 = 'r' then (unesc rest1).map (fun t => '\r' :: t)
    else if c1 = '\\' then (unesc rest1).map (fun t => '\\' :: t)
    else if c1 = '\"' then (unesc rest1).map (fun t => '\"' :: t)
    else if isOctD c1 then
      match rest1 with
      | [] => (replOfGroup [c1]).map (fun rep => rep)
      | d2 :: rest2 =>
        if isOctD d2 then
          match rest2 with
          | [] => (replOfGroup [c1, d2]).map (fun rep => rep)
          | d3 :: rest3 =>
            if isOctD d3 then
              (replOfGroup [c1, d2, d3]).bind (fun rep => (unesc rest3).map (fun t => rep ++ t))
            else if d3 = '\\' then
              (replOfGroup [c1, d2]).bind (fun rep => (unescB rest3).map (fun t => rep ++ t))
            else
              (replOfGroup [c1, d2]).bind (fun rep => (unesc rest3).map (fun t => rep ++ d3 :: t))
        else if d2 = '\\' then
          (replOfGroup [c1]).bind (fun rep => (unescB rest2).map (fun t => rep ++ t))
        else
          (replOfGroup [c1]).bind (fun rep => (unesc rest2).map (fun t => rep ++ d2 :: t))
    else if c1 = 'x' then
      match rest1 with
      | [] => some ['\\', 'x']
      | h1 :: rest2 =>
        if isHexD h1 then
          match rest2 with
          | [] => some ['\\', 'x', h1]
          | h2 :: rest3 =>
            if isHexD h2 then
              (replOfGroup ['x', h1, h2]).bind (fun rep => (unesc rest3).map (fun t => rep ++ t))
            else if h2 = '\\' then
              (unescB rest3).map (fun t => '\\' :: 'x' :: h1 :: t)
            else
              (unesc rest3).map (fun t => '\\' :: 'x' :: h1 :: h2 :: t)
        else if h1 = '\\' then (unescB rest2).map (fun t => '\\' :: 'x' :: t)
        else (unesc rest2).map (fun t => '\\' :: 'x' :: h1 :: t)
    else (unesc rest1).map (fun t => '\\' :: c1 :: t)

end

/-- Total escape decoder, the value computed by _unescape when no
conversion error occurs. -/
def unescape (s : Str) : Str := (unesc s).getD []

/-- Model of _parse_quoted: strip the remainder of the directive line,
require it to both start and end with a double quote, and decode the
interior.  none models the raised ValueError. -/
def parseQuoted (rest : Str) : Option Str :=
  let r := stripWs rest
  if r.head? = some '\"' ∧ r.getLast? = some '\"' then unesc ((r.drop 1).dropLast)
  else none

/-- The active-target marker of parse_po: which field a continuation
line appends to.  Mirrors the pairs (kind, index) of the source. -/
inductive Target where
  | tctxt : Target
  | tid : Target
  | tplural : Target
  | tstr : Int → Target
deriving DecidableEq, Repr

/-- In-progress record fields of parse_po between flushes.  The
translations mapping msgstr is an association list with the insertion
semantics of a Python dict; its keys are Python ints. -/
structure PState where
  msgctxt : Option Str
  msgid : Option Str
  msgid_plural : Option Str
  msgstr : List (Int × Str)
  flags : List Str
  active : Option Target
deriving DecidableEq, Repr

/-- A completed message record appended by flush. -/
structure Record where
  msgctxt : Option Str
  msgid : Str
  msgid_plural : Option Str
  msgstr : List (Int × Str)
  flags : List Str
deriving DecidableEq, Repr

/-- The reset field values of parse_po. -/
def initState : PState := ⟨none, none, none, [], [], none⟩

/-- Model of a Python dict assignment d[k] = v on an association list:
replace in place if the key is present, append otherwise. -/
def dictInsert {κ ν : Type} [DecidableEq κ] : List (κ × ν) → κ → ν → List (κ × ν)
  | [], k, v => [(k, v)]
  | kv :: rest, k, v =>
    if kv.1 = k then (k, v) :: rest else kv :: dictInsert rest k v

/-- Model of Python dict lookup d.get(k) on an association list. -/
def dictGet {κ ν : Type} [DecidableEq κ] : List (κ × ν) → κ → Option ν
  | [], _ => none
  | kv :: rest, k => if kv.1 = k then some kv.2 else dictGet rest k

/-- Model of d.setdefault(k, v): insert only when the key is absent. -/
def setdefaultD {κ ν : Type} [DecidableEq κ] (d : List (κ × ν)) (k : κ) (v : ν) :
    List (κ × ν) :=
  match dictGet d k with
  | some _ => d
  | none => d ++ [(k, v)]

/-- Model of set.add on a list representing a Python set. -/
def setAdd (s : List Str) (x : Str) : List Str :=
  if x ∈ s then s else s ++ [x]

/-- Flag-comment handling of parse_po: split the text after the comma
marker on commas, strip each piece, and add the non-empty pieces. -/
def addFlags (fl : List Str) (pieces : List Str) : List Str :=
  pieces.foldl (fun acc p => let q := stripWs p; if q = [] then acc else setAdd acc q) fl

/-- Model of the nested flush procedure of parse_po: with no msgid the
accumulated fields are discarded, otherwise a completed record is
appended; all fields and the active target reset either way. -/
def flushSM (st : PState) (msgs : List Record) : PState × List Record :=
  match st.msgid with
  | none => (initState, msgs)
  | some i => (initState, msgs ++ [⟨st.msgctxt, i, st.msgid_plural, st.msgstr, st.flags⟩])

/-- One iteration of the line loop of parse_po, with none modelling an
uncaught ValueError.  The dispatch order follows the source. -/
def step (acc : PState × List Record) (line : Str) : Option (PState × List Record) :=
  let st := acc.1
  let msgs := acc.2
  if stripWs line = [] then some (flushSM st msgs)
  else if startsWithS (S "#,") line then
    some ({ st with flags := addFlags st.flags ((line.drop 2).splitOn ',') }, msgs)
  else if startsWithS (S "#") line then some (st, msgs)
  else if startsWithS (S "msgctxt") line then
    match parseQuoted (line.drop 7) with
    | none => none
    | some v => some ({ st with msgctxt := some v, active := some Target.tctxt }, msgs)
  else if startsWithS (S "msgid_plural") line then
    match parseQuoted (line.drop 12) with
    | none => none
    | some v => some ({ st with msgid_plural := some v, active := some Target.tplural }, msgs)
  else if startsWithS (S "msgid") line then
    match parseQuoted (line.drop 5) with
    | none => none
    | some v => some ({ st with msgid := some v, active := some Target.tid }, msgs)
  else if startsWithS (S "msgstr[") line then
    match line.findIdx? (fun c => c = ']') with
    | some close =>
      match pyIntOpt 10 ((line.take close).drop 7) with
      | none => none
      | some n =>
        match parseQuoted (line.drop (close + 1)) with
        | none => none
        | some v =>
          some ({ st with msgstr := dictInsert st.msgstr n v,
                          active := some (Target.tstr n) }, msgs)
    | none =>
      match pyIntOpt 10 (line.dropLast.drop 7) with
      | none => none
      | some n =>
        match parseQuoted line with
        | none => none
        | some v =>
          some ({ st with msgstr := dictInsert st.msgstr n v,
                          active := some (Target.tstr n) }, msgs)
  else if startsWithS (S "msgstr") line then
    match parseQuoted (line.drop 6) with
    | none => none
    | some v =>
      some ({ st with msgstr := dictInsert st.msgstr 0 v,
                      active := some (Target.tstr 0) }, msgs)
  else if (lstripWs line).head? = some '\"' then
    match parseQuoted line with
    | none => none
    | some v =>
      match st.active with
      | none => some (st, msgs)
      | some Target.tctxt =>
        some ({ st with msgctxt := some ((st.msgctxt.getD []) ++ v) }, msgs)
      | some Target.tid =>
        some ({ st with msgid := some ((st.msgid.getD []) ++ v) }, msgs)
      | some Target.tplural =>
        some ({ st with msgid_plural := some ((st.msgid_plural.getD []) ++ v) }, msgs)
      | some (Target.tstr i) =>
        some ({ st with msgstr := dictInsert st.msgstr i ((dictGet st.msgstr i).getD [] ++ v) }, msgs)
  else some (st, msgs)

/-- The line loop of parse_po over the already-split lines of the
input file (each with its trailing newline removed). -/
def processLines (lines : List Str) : Option (PState × List Record) :=
  lines.foldlM step (initState, [])

/-- The record sequence produced by parse_po: the line loop followed by
the single implicit flush at end of input. -/
def parsePoMsgs (lines : List Str) : Option (List Record) :=
  (processLines lines).map (fun p => (flushSM p.1 p.2).2)

/-- Largest key of the translations mapping, 0 when it is empty; the
model of max(msgstrs.keys(), default=0). -/
def maxKeyD (l : List Int) : Int :=
  match l with
  | [] => 0
  | x :: xs => xs.foldl max x

/-- Model of range(n) for a Python int n: the ints 0, 1, ... n-1, empty
when n is not positive. -/
def intRange (n : Int) : List Int := (List.range n.toNat).map Int.ofNat

/-- Context composition of the assembler, modelling lines 146-147 of
the source: the key is prefixed when msgctxt is truthy, that is present
and non-empty. -/
def withCtx (ctx : Option Str) (key : Str) : Str :=
  match ctx with
  | some c => if c = [] then key else c ++ [Char.ofNat 4] ++ key
  | none => key

/-- Catalog contribution of one record, modelling the body of the
assembly loop of parse_po: none for a fuzzy record, otherwise the
composite key and value. -/
def recordEntry (r : Record) : Option (Str × Str) :=
  if S "fuzzy" ∈ r.flags then none
  else
    let kv : Str × Str :=
      match r.msgid_plural with
      | some pl =>
        let key := r.msgid ++ [Char.ofNat 0] ++ pl
        let maxIndex := maxKeyD (r.msgstr.map Prod.fst)
        let value :=
          List.intercalate [Char.ofNat 0]
            ((intRange (maxIndex + 1)).map (fun i => (dictGet r.msgstr i).getD []))
        (key, value)
      | none => (r.msgid, (dictGet r.msgstr 0).getD [])
    some (withCtx r.msgctxt kv.1, kv.2)

/-- The assembly loop of parse_po: fold the records into the catalog
dict in order, then default the empty key. -/
def assemble (msgs : List Record) : List (Str × Str) :=
  setdefaultD
    (msgs.foldl
      (fun cat r =>
        match recordEntry r with
        | none => cat
        | some kv => dictInsert cat kv.1 kv.2)
      [])
    [] []

/-- Model of parse_po on the list of input lines: the record sequence
assembled into the catalog. -/
def parse_po (lines : List Str) : Option (List (Str × Str)) :=
  (parsePoMsgs lines).map assemble

/-- UTF-8 encoding of one Unicode code point, the model of the per-
character behaviour of str.encode("utf-8"). -/
def utf8Bytes (c : Nat) : List Nat :=
  if c < 128 then [c]
  else if c < 2048 then [192 + c / 64, 128 + c % 64]
  else if c < 65536 then [224 + c / 4096, 128 + c / 64 % 64, 128 + c % 64]
  else [240 + c / 262144, 128 + c / 4096 % 64, 128 + c / 64 % 64, 128 + c % 64]

/-- UTF-8 encoding of a whole string. -/
def utf8Str (s : Str) : List Nat := (s.map (fun c => utf8Bytes c.toNat)).flatten

/-- Strict lexicographic comparison of code-point sequences, the model
of the Python string comparison used as the sort key. -/
def charsLtB : Str → Str → Bool
  | _, [] => false
  | [], _ :: _ => true
  | a :: as, b :: bs =>
    if a.toNat < b.toNat then true
    else if a.toNat = b.toNat then charsLtB as bs
    else false

/-- Strict lexicographic comparison of byte sequences. -/
def natsLtB : List Nat → List Nat → Bool
  | _, [] => false
  | [], _ :: _ => true
  | a :: as, b :: bs =>
    if a < b then true
    else if a = b then natsLtB as bs
    else false

/-- Sort order used by the serializer: sorted(catalog.items(), key) on
the key string. -/
def entryLe (a b : Str × Str) : Prop := charsLtB b.1 a.1 = false

instance : DecidableRel entryLe := fun a b =>
  inferInstanceAs (Decidable (charsLtB b.1 a.1 = false))

/-- Sorted entry list of write_mo. -/
def sortEntries (catalog : List (Str × Str)) : List (Str × Str) :=
  List.insertionSort entryLe catalog

/-- Little-endian 32-bit encoding of a field, the model of
struct.pack of one 4-byte integer. -/
def le32 (n : Nat) : List Nat :=
  [n % 256, n / 256 % 256, n / 65536 % 256, n / 16777216 % 256]

/-- Length/offset table of write_mo: the loop appends one entry per
string, the offset advancing past the string and its NUL terminator. -/
def tableOf (start : Nat) : List (List Nat) → List (Nat × Nat)
  | [] => []
  | v :: rest => (v.length, start) :: tableOf (start + v.length + 1) rest

/-- String pool of write_mo: each byte string followed by a NUL. -/
def poolOf : List (List Nat) → List Nat
  | [] => []
  | v :: rest => v ++ [0] ++ poolOf rest

/-- Serialized bytes of one length/offset table. -/
def tableBytes (t : List (Nat × Nat)) : List Nat :=
  t.flatMap (fun lo => le32 lo.1 ++ le32 lo.2)

/-- Model of write_mo: the byte stream written to the output file. -/
def write_mo (catalog : List (Str × Str)) : List Nat :=
  let entries := sortEntries catalog
  let ids := entries.map (fun e => utf8Str e.1)
  let strs := entries.map (fun e => utf8Str e.2)
  let count := entries.length
  let headerSize := 7 * 4
  let tableSize := count * 8
  let originalsOffset := headerSize
  let translationsOffset := originalsOffset + tableSize
  let stringOffset := translationsOffset + tableSize
  let offsetsIds := tableOf stringOffset ids
  let offsetsStrs := tableOf (stringOffset + (poolOf ids).length) strs
  le32 2500072158 ++ le32 0 ++ le32 count ++ le32 originalsOffset ++
    le32 translationsOffset ++ le32 0 ++ le32 0 ++
    tableBytes offsetsIds ++ tableBytes offsetsStrs ++ poolOf ids ++ poolOf strs

/-- Model of main: parse then serialize; a parse failure aborts before
any output bytes exist. -/
def compile (lines : List Str) : Option (List Nat) :=
  (parse_po lines).map write_mo

/-- Base-16 value of a hexadecimal digit character, as the claim about
the escape decoder describes it. -/
def hexVal (c : Char) : Nat :=
  if c.toNat ≤ 57 then c.toNat - 48
  else if 97 ≤ c.toNat then c.toNat - 87
  else c.toNat - 55

section CharLemmas

lemma charToNat_inj {a b : Char} (h : a.toNat = b.toNat) : a = b :=
  Char.ext (UInt32.ext h)

lemma isSpaceC_toNat {c : Char} (h : isSpaceC c = true) :
    c.toNat = 32 ∨ c.toNat = 9 ∨ c.toNat = 10 ∨ c.toNat = 13 ∨
      c.toNat = 11 ∨ c.toNat = 12 := by
  simp only [isSpaceC, Bool.or_eq_true, decide_eq_true_eq] at h
  rcases h with ((((h | h) | h) | h) | h) | h <;> subst h <;> decide

lemma notSpace_of_ge48 {c : Char} (h : 48 ≤ c.toNat) : isSpaceC c = false := by
  cases e : isSpaceC c with
  | false => rfl
  | true => exact absurd (isSpaceC_toNat e) (by omega)

lemma dropWhile_eq_self {p : Char → Bool} {s : Str}
    (h : ∀ c ∈ s, p c = false) : s.dropWhile p = s := by
  cases s with
  | nil => rfl
  | cons c cs => simp [List.dropWhile_cons, h c (by simp)]

lemma stripWs_eq_self {s : Str} (h : ∀ c ∈ s, isSpaceC c = false) :
    stripWs s = s := by
  unfold stripWs
  rw [dropWhile_eq_self h, dropWhile_eq_self (fun c hc => h c (by
    simpa using hc)), List.reverse_reverse]

lemma isOctD_range {c : Char} (h : isOctD c = true) :
    48 ≤ c.toNat ∧ c.toNat ≤ 55 := by
  simpa [isOctD] using h

lemma isHexD_range {c : Char} (h : isHexD c = true) :
    (48 ≤ c.toNat ∧ c.toNat ≤ 57) ∨ (97 ≤ c.toNat ∧ c.toNat ≤ 102) ∨
      (65 ≤ c.toNat ∧ c.toNat ≤ 70) := by
  simpa [isHexD, or_assoc] using h

lemma isHexD_ge48 {c : Char} (h : isHexD c = true) : 48 ≤ c.toNat := by
  rcases isHexD_range h with h | h | h <;> omega

end CharLemmas

section DigitLemmas

lemma digitVal_oct {c : Char} (h : isOctD c = true) :
    digitVal 8 c = some (c.toNat - 48) := by
  have hr := isOctD_range h
  unfold digitVal
  rw [if_pos ⟨hr.1, by omega⟩]
  simp only []
  rw [if_pos (by omega)]

lemma digitVal_hex {c : Char} (h : isHexD c = true) :
    digitVal 16 c = some (hexVal c) := by
  rcases isHexD_range h with hr | hr | hr
  · unfold digitVal hexVal
    rw [if_pos ⟨hr.1, hr.2⟩]
    simp only []
    rw [if_pos (by omega), if_pos (by omega)]
  · unfold digitVal hexVal
    rw [if_neg (by omega), if_pos ⟨hr.1, by omega⟩]
    simp only []
    rw [if_pos (by omega), if_neg (by omega), if_pos (by omega)]
    exact congrArg some (by omega)
  · unfold digitVal hexVal
    rw [if_neg (by omega), if_neg (by omega), if_pos ⟨hr.1, by omega⟩]
    simp only []
    rw [if_pos (by omega), if_neg (by omega), if_neg (by omega)]
    exact congrArg some (by omega)

end DigitLemmas

section PyIntLemmas

lemma digitVal_underscore (base : Nat) : digitVal base '_' = none := by
  unfold digitVal
  rw [if_neg (by decide), if_neg (by decide), if_neg (by decide)]

lemma digitVal_ne_underscore {base : Nat} {c : Char} {v : Nat}
    (hv : digitVal base c = some v) : c ≠ '_' := by
  intro e
  rw [e, digitVal_underscore] at hv
  exact Option.noConfusion hv

lemma pyDigitsAux_cons {base acc v : Nat} {c : Char} {cs : Str}
    (hv : digitVal base c = some v) :
    pyDigitsAux base acc (c :: cs) = pyDigitsAux base (acc * base + v) cs := by
  have hc := digitVal_ne_underscore hv
  conv_lhs => rw [pyDigitsAux.eq_def]
  split
  · simp_all
  · rename_i c2 rest2 heq
    injection heq with e1 e2
    subst e1
    subst e2
    rw [if_neg hc, hv]

lemma pyDigits_cons {base v : Nat} {c : Char} {cs : Str}
    (hv : digitVal base c = some v) :
    pyDigits base (c :: cs) = pyDigitsAux base v cs := by
  have hc := digitVal_ne_underscore hv
  unfold pyDigits
  show (if c = '_' then none else pyDigitsAux base 0 (c :: cs)) = pyDigitsAux base v cs
  rw [if_neg hc, pyDigitsAux_cons hv]
  simp

lemma pyIntOpt_run {base : Nat} {c : Char} {cs : Str} {v : Nat}
    (h48 : 48 ≤ c.toNat)
    (hsp : ∀ x ∈ cs, 48 ≤ Char.toNat x)
    (hv : digitVal base c = some v) :
    pyIntOpt base (c :: cs) = (pyDigitsAux base v cs).map Int.ofNat := by
  unfold pyIntOpt
  rw [stripWs_eq_self (by
    intro x hx
    rcases List.mem_cons.mp hx with h | h
    · subst h; exact notSpace_of_ge48 h48
    · exact notSpace_of_ge48 (hsp x h))]
  have hplus : c ≠ '+' := fun e => by subst e; exact absurd h48 (by decide)
  have hminus : c ≠ '-' := fun e => by subst e; exact absurd h48 (by decide)
  show (if c = '+' then (pyDigits base cs).map Int.ofNat
        else if c = '-' then (pyDigits base cs).map (fun n => -(Int.ofNat n : Int))
        else (pyDigits base (c :: cs)).map Int.ofNat) =
      (pyDigitsAux base v cs).map Int.ofNat
  rw [if_neg hplus, if_neg hminus, pyDigits_cons hv]

lemma pyIntOpt_oct1 {c : Char} (h : isOctD c = true) :
    pyIntOpt 8 [c] = some (Int.ofNat (c.toNat - 48)) := by
  have hr := isOctD_range h
  rw [pyIntOpt_run (by omega) (by simp) (digitVal_oct h)]
  rfl

lemma pyIntOpt_oct2 {c d : Char} (hc : isOctD c = true) (hd : isOctD d = true) :
    pyIntOpt 8 [c, d] = some (Int.ofNat ((c.toNat - 48) * 8 + (d.toNat - 48))) := by
  have hrc := isOctD_range hc
  have hrd := isOctD_range hd
  rw [pyIntOpt_run (by omega) (by intro x hx; simp at hx; subst hx; omega)
      (digitVal_oct hc)]
  rw [pyDigitsAux_cons (digitVal_oct hd)]
  rfl

lemma pyIntOpt_oct3 {c d e : Char} (hc : isOctD c = true) (hd : isOctD d = true)
    (he : isOctD e = true) :
    pyIntOpt 8 [c, d, e] =
      some (Int.ofNat (((c.toNat - 48) * 8 + (d.toNat - 48)) * 8 + (e.toNat - 48))) := by
  have hrc := isOctD_range hc
  have hrd := isOctD_range hd
  have hre := isOctD_range he
  rw [pyIntOpt_run (by omega)
      (by intro x hx; simp at hx; rcases hx with h | h <;> subst h <;> omega)
      (digitVal_oct hc)]
  rw [pyDigitsAux_cons (digitVal_oct hd), pyDigitsAux_cons (digitVal_oct he)]
  rfl

lemma pyIntOpt_hex2 {a b : Char} (ha : isHexD a = true) (hb : isHexD b = true) :
    pyIntOpt 16 [a, b] = some (Int.ofNat (hexVal a * 16 + hexVal b)) := by
  rw [pyIntOpt_run (isHexD_ge48 ha)
      (by intro x hx; simp at hx; subst hx; exact isHexD_ge48 hb)
      (digitVal_hex ha)]
  rw [pyDigitsAux_cons (digitVal_hex hb)]
  rfl

end PyIntLemmas

section ReplLemmas

lemma oct_ne_named {c : Char} (h : isOctD c = true) :
    c ≠ 'n' ∧ c ≠ 't' ∧ c ≠ 'r' ∧ c ≠ '\\' ∧ c ≠ '\"' ∧ c ≠ 'x' := by
  refine ⟨?_, ?_, ?_, ?_, ?_, ?_⟩ <;>
    exact fun e => by rw [e] at h; exact absurd h (by decide)

lemma replOfGroup_oct1 {c : Char} (h : isOctD c = true) :
    replOfGroup [c] = some [Char.ofNat (c.toNat - 48)] := by
  obtain ⟨hn, ht, hr, hb, hq, hx⟩ := oct_ne_named h
  unfold replOfGroup
  rw [if_neg (by simp [hn]), if_neg (by simp [ht]), if_neg (by simp [hr]),
    if_neg (by simp [hb]), if_neg (by simp [hq])]
  split
  · rename_i heq
    exact absurd (by injection heq : c = 'x') hx
  · rw [pyIntOpt_oct1 h]
    simp

lemma replOfGroup_oct2 {c d : Char} (hc : isOctD c = true) (hd : isOctD d = true) :
    replOfGroup [c, d] =
      some [Char.ofNat ((c.toNat - 48) * 8 + (d.toNat - 48))] := by
  obtain ⟨hn, ht, hr, hb, hq, hx⟩ := oct_ne_named hc
  unfold replOfGroup
  rw [if_neg (by simp), if_neg (by simp), if_neg (by simp), if_neg (by simp),
    if_neg (by simp)]
  split
  · rename_i heq
    exact absurd (by injection heq : c = 'x') hx
  · rw [pyIntOpt_oct2 hc hd]
    simp
    congr 1

lemma replOfGroup_oct3 {c d e : Char} (hc : isOctD c = true) (hd : isOctD d = true)
    (he : isOctD e = true) :
    replOfGroup [c, d, e] =
      some [Char.ofNat (((c.toNat - 48) * 8 + (d.toNat - 48)) * 8 + (e.toNat - 48))] := by
  obtain ⟨hn, ht, hr, hb, hq, hx⟩ := oct_ne_named hc
  unfold replOfGroup
  rw [if_neg (by simp), if_neg (by simp), if_neg (by simp), if_neg (by simp),
    if_neg (by simp)]
  split
  · rename_i heq
    exact absurd (by injection heq : c = 'x') hx
  · rw [pyIntOpt_oct3 hc hd he]
    simp
    congr 1

lemma replOfGroup_hex {a b : Char} (ha : isHexD a = true) (hb : isHexD b = true) :
    replOfGroup ['x', a, b] = some [Char.ofNat (hexVal a * 16 + hexVal b)] := by
  unfold replOfGroup
  rw [if_neg (by simp), if_neg (by simp), if_neg (by simp), if_neg (by simp),
    if_neg (by simp)]
  split
  · rename_i body heq
    injection heq with e1 e2
    subst e2
    rw [pyIntOpt_hex2 ha hb]
    simp
    congr 1
  · rename_i hne
    exact (hne [a, b] rfl).elim

end ReplLemmas

section UnescEquations

lemma unesc_nil : unesc [] = some [] := rfl

lemma unesc_bs (r : Str) : unesc ('\\' :: r) = unescB r := rfl

lemma unesc_cons {c : Char} (r : Str) (h : ¬ c = '\\') :
    unesc (c :: r) = (unesc r).map (fun t => c :: t) := by
  rw [unesc.eq_def]
  split
  · rename_i heq
    exact absurd heq (by simp)
  · rename_i rest heq
    injection heq with e1 e2
    exact absurd e1 h
  · rename_i c2 rest x heq
    injection heq with e1 e2
    subst e1
    subst e2
    rfl

lemma unescB_nil : unescB [] = some ['\\'] := rfl

lemma unescB_n (r : Str) :
    unescB ('n' :: r) = (unesc r).map (fun t => '\n' :: t) := by
  rcases r with _ | ⟨a, _ | ⟨b, r⟩⟩ <;> simp [unescB]

lemma unescB_t (r : Str) :
    unescB ('t' :: r) = (unesc r).map (fun t => '\t' :: t) := by
  rcases r with _ | ⟨a, _ | ⟨b, r⟩⟩ <;> simp [unescB]

lemma unescB_r (r : Str) :
    unescB ('r' :: r) = (unesc r).map (fun t => '\r' :: t) := by
  rcases r with _ | ⟨a, _ | ⟨b, r⟩⟩ <;> simp [unescB]

lemma unescB_bs (r : Str) :
    unescB ('\\' :: r) = (unesc r).map (fun t => '\\' :: t) := by
  rcases r with _ | ⟨a, _ | ⟨b, r⟩⟩ <;> simp [unescB]

lemma unescB_quote (r : Str) :
    unescB ('\"' :: r) = (unesc r).map (fun t => '\"' :: t) := by
  rcases r with _ | ⟨a, _ | ⟨b, r⟩⟩ <;> simp [unescB]

lemma unescB_oct1_nil {c : Char} (hc : isOctD c = true) :
    unescB [c] = some [Char.ofNat (c.toNat - 48)] := by
  obtain ⟨hn, ht, hr2, hb, hq, hx⟩ := oct_ne_named hc
  simp only [unescB]
  rw [if_neg hn, if_neg ht, if_neg hr2, if_neg hb, if_neg hq, if_pos hc,
    replOfGroup_oct1 hc]
  rfl

lemma unescB_oct2_nil {c d : Char} (hc : isOctD c = true) (hd : isOctD d = true) :
    unescB [c, d] = some [Char.ofNat ((c.toNat - 48) * 8 + (d.toNat - 48))] := by
  obtain ⟨hn, ht, hr2, hb, hq, hx⟩ := oct_ne_named hc
  simp only [unescB]
  rw [if_neg hn, if_neg ht, if_neg hr2, if_neg hb, if_neg hq, if_pos hc,
    if_pos hd, replOfGroup_oct2 hc hd]
  rfl

lemma unescB_oct3 {c d e : Char} (hc : isOctD c = true) (hd : isOctD d = true)
    (he : isOctD e = true) (r : Str) :
    unescB (c :: d :: e :: r) =
      (unesc r).map (fun t =>
        Char.ofNat (((c.toNat - 48) * 8 + (d.toNat - 48)) * 8 + (e.toNat - 48)) :: t) := by
  obtain ⟨hn, ht, hr2, hb, hq, hx⟩ := oct_ne_named hc
  simp only [unescB]
  rw [if_neg hn, if_neg ht, if_neg hr2, if_neg hb, if_neg hq, if_pos hc,
    if_pos hd, if_pos he, replOfGroup_oct3 hc hd he]
  rcases u : unesc r with _ | t <;> rfl

lemma unescB_oct2_bs {c d : Char} (hc : isOctD c = true) (hd : isOctD d = true)
    (r : Str) :
    unescB (c :: d :: '\\' :: r) =
      (unescB r).map (fun t => Char.ofNat ((c.toNat - 48) * 8 + (d.toNat - 48)) :: t) := by
  obtain ⟨hn, ht, hr2, hb, hq, hx⟩ := oct_ne_named hc
  simp only [unescB]
  rw [if_neg hn, if_neg ht, if_neg hr2, if_neg hb, if_neg hq, if_pos hc, if_pos hd]
  simp [replOfGroup_oct2 hc hd, (show isOctD '\\' = false by decide)]

lemma unescB_oct2_other {c d e : Char} (hc : isOctD c = true) (hd : isOctD d = true)
    (he : isOctD e = false) (hbs : ¬ e = '\\') (r : Str) :
    unescB (c :: d :: e :: r) =
      (unesc r).map (fun t =>
        Char.ofNat ((c.toNat - 48) * 8 + (d.toNat - 48)) :: e :: t) := by
  obtain ⟨hn, ht, hr2, hb, hq, hx⟩ := oct_ne_named hc
  simp only [unescB]
  rw [if_neg hn, if_neg ht, if_neg hr2, if_neg hb, if_neg hq, if_pos hc,
    if_pos hd, if_neg (by rw [he]; exact Bool.false_ne_true), if_neg hbs,
    replOfGroup_oct2 hc hd]
  rcases u : unesc r with _ | t <;> rfl

lemma unescB_oct1_bs {c : Char} (hc : isOctD c = true) (r : Str) :
    unescB (c :: '\\' :: r) =
      (unescB r).map (fun t => Char.ofNat (c.toNat - 48) :: t) := by
  obtain ⟨hn, ht, hr2, hb, hq, hx⟩ := oct_ne_named hc
  rcases r with _ | ⟨b, r⟩ <;>
    (simp only [unescB]
     rw [if_neg hn, if_neg ht, if_neg hr2, if_neg hb, if_neg hq, if_pos hc]
     simp [replOfGroup_oct1 hc, (show isOctD '\\' = false by decide)])

lemma unescB_oct1_other {c d : Char} (hc : isOctD c = true) (hd : isOctD d = false)
    (hbs : ¬ d = '\\') (r : Str) :
    unescB (c :: d :: r) =
      (unesc r).map (fun t => Char.ofNat (c.toNat - 48) :: d :: t) := by
  obtain ⟨hn, ht, hr2, hb, hq, hx⟩ := oct_ne_named hc
  rcases r with _ | ⟨b, r⟩
  · simp only [unescB]
    rw [if_neg hn, if_neg ht, if_neg hr2, if_neg hb, if_neg hq, if_pos hc,
      if_neg (by rw [hd]; exact Bool.false_ne_true), if_neg hbs,
      replOfGroup_oct1 hc]
    rfl
  · simp only [unescB]
    rw [if_neg hn, if_neg ht, if_neg hr2, if_neg hb, if_neg hq, if_pos hc,
      if_neg (by rw [hd]; exact Bool.false_ne_true), if_neg hbs,
      replOfGroup_oct1 hc]
    rcases u : unesc (b :: r) with _ | t <;> rfl

lemma unescB_x_nil : unescB ['x'] = some ['\\', 'x'] := rfl

lemma unescB_x1 {h1 : Char} (hh : isHexD h1 = true) :
    unescB ['x', h1] = some ['\\', 'x', h1] := by
  simp only [unescB]
  simp [hh, (show isOctD 'x' = false by decide)]

lemma unescB_x2 {h1 h2 : Char} (hh1 : isHexD h1 = true) (hh2 : isHexD h2 = true)
    (r : Str) :
    unescB ('x' :: h1 :: h2 :: r) =
      (unesc r).map (fun t => Char.ofNat (hexVal h1 * 16 + hexVal h2) :: t) := by
  simp only [unescB]
  simp [hh1, hh2, (show isOctD 'x' = false by decide), replOfGroup_hex hh1 hh2]

lemma unescB_x_bs2 {h1 : Char} (hh1 : isHexD h1 = true) (r : Str) :
    unescB ('x' :: h1 :: '\\' :: r) =
      (unescB r).map (fun t => '\\' :: 'x' :: h1 :: t) := by
  simp only [unescB]
  simp [hh1, (show isOctD 'x' = false by decide), (show isHexD '\\' = false by decide)]

lemma unescB_x_fail2 {h1 h2 : Char} (hh1 : isHexD h1 = true)
    (hh2 : isHexD h2 = false) (hbs : ¬ h2 = '\\') (r : Str) :
    unescB ('x' :: h1 :: h2 :: r) =
      (unesc r).map (fun t => '\\' :: 'x' :: h1 :: h2 :: t) := by
  simp only [unescB]
  simp [hh1, hh2, hbs, (show isOctD 'x' = false by decide)]

lemma unescB_x_bs1 (r : Str) :
    unescB ('x' :: '\\' :: r) = (unescB r).map (fun t => '\\' :: 'x' :: t) := by
  rcases r with _ | ⟨b, r⟩ <;>
    simp [unescB, (show isOctD 'x' = false by decide),
      (show isHexD '\\' = false by decide)]

lemma unescB_x_fail1 {h1 : Char} (hh1 : isHexD h1 = false) (hbs : ¬ h1 = '\\')
    (r : Str) :
    unescB ('x' :: h1 :: r) = (unesc r).map (fun t => '\\' :: 'x' :: h1 :: t) := by
  rcases r with _ | ⟨b, r⟩ <;>
    (simp only [unescB]
     simp [hh1, hbs, (show isOctD 'x' = false by decide)])

lemma unescB_other {c : Char} (hn : ¬ c = 'n') (ht : ¬ c = 't') (hrr : ¬ c = 'r')
    (hb : ¬ c = '\\') (hq : ¬ c = '\"') (ho : isOctD c = false) (hx : ¬ c = 'x')
    (r : Str) :
    unescB (c :: r) = (unesc r).map (fun t => '\\' :: c :: t) := by
  rcases r with _ | ⟨a, _ | ⟨b, r⟩⟩ <;>
    (simp only [unescB]
     rw [if_neg hn, if_neg ht, if_neg hrr, if_neg hb, if_neg hq,
       if_neg (by rw [ho]; exact Bool.false_ne_true), if_neg hx])

end UnescEquations

section Totality

lemma unesc_isSome : ∀ s, (unesc s).isSome = true := by
  refine unesc.induct (fun s => (unesc s).isSome = true)
    (fun s => (unescB s).isSome = true)
    ?_ ?_ ?_ ?_ ?_ ?_ ?_ ?_ ?_ ?_ ?_ ?_ ?_ ?_ ?_ ?_ ?_ ?_ ?_ ?_ ?_ ?_ ?_ ?_
  all_goals intros
  all_goals simp_all [unesc_nil, unesc_bs, unesc_cons, unescB_nil, unescB_n,
    unescB_t, unescB_r, unescB_bs, unescB_quote, unescB_oct1_nil, unescB_oct2_nil,
    unescB_oct3, unescB_oct2_bs, unescB_oct2_other, unescB_oct1_bs,
    unescB_oct1_other, unescB_x_nil, unescB_x1, unescB_x2, unescB_x_bs2,
    unescB_x_fail2, unescB_x_bs1, unescB_x_fail1, unescB_other]

lemma unesc_eq_some (s : Str) : unesc s = some (unescape s) := by
  have h := unesc_isSome s
  rcases u : unesc s with _ | t
  · rw [u] at h
    exact absurd h (by simp)
  · simp [unescape, u]

lemma unescB_isSome (s : Str) : (unescB s).isSome = true := by
  rw [← unesc_bs]
  exact unesc_isSome _

lemma unescB_eq_some (s : Str) : unescB s = some (unescape ('\\' :: s)) := by
  rw [← unesc_bs]
  exact unesc_eq_some _

end Totality

section UnescapeEquations

lemma unescape_nil : unescape [] = [] := rfl

lemma unescape_cons {c : Char} (r : Str) (h : ¬ c = '\\') :
    unescape (c :: r) = c :: unescape r := by
  conv_lhs => rw [show unescape (c :: r) = (unesc (c :: r)).getD [] from rfl]
  rw [unesc_cons r h, unesc_eq_some r]
  rfl

lemma unescape_n (r : Str) : unescape ('\\' :: 'n' :: r) = '\n' :: unescape r := by
  conv_lhs => rw [show unescape ('\\' :: 'n' :: r) = (unescB ('n' :: r)).getD [] from rfl]
  rw [unescB_n, unesc_eq_some r]
  rfl

lemma unescape_t (r : Str) : unescape ('\\' :: 't' :: r) = '\t' :: unescape r := by
  conv_lhs => rw [show unescape ('\\' :: 't' :: r) = (unescB ('t' :: r)).getD [] from rfl]
  rw [unescB_t, unesc_eq_some r]
  rfl

lemma unescape_r (r : Str) : unescape ('\\' :: 'r' :: r) = '\r' :: unescape r := by
  conv_lhs => rw [show unescape ('\\' :: 'r' :: r) = (unescB ('r' :: r)).getD [] from rfl]
  rw [unescB_r, unesc_eq_some r]
  rfl

lemma unescape_bs (r : Str) : unescape ('\\' :: '\\' :: r) = '\\' :: unescape r := by
  conv_lhs => rw [show unescape ('\\' :: '\\' :: r) = (unescB ('\\' :: r)).getD [] from rfl]
  rw [unescB_bs, unesc_eq_some r]
  rfl

lemma unescape_quote (r : Str) : unescape ('\\' :: '\"' :: r) = '\"' :: unescape r := by
  conv_lhs => rw [show unescape ('\\' :: '\"' :: r) = (unescB ('\"' :: r)).getD [] from rfl]
  rw [unescB_quote, unesc_eq_some r]
  rfl

lemma unescape_oct3 {d1 d2 d3 : Char} (h1 : isOctD d1 = true) (h2 : isOctD d2 = true)
    (h3 : isOctD d3 = true) (r : Str) :
    unescape ('\\' :: d1 :: d2 :: d3 :: r) =
      Char.ofNat (64 * (d1.toNat - 48) + 8 * (d2.toNat - 48) + (d3.toNat - 48)) ::
        unescape r := by
  conv_lhs => rw [show unescape ('\\' :: d1 :: d2 :: d3 :: r) =
    (unescB (d1 :: d2 :: d3 :: r)).getD [] from rfl]
  rw [unescB_oct3 h1 h2 h3, unesc_eq_some r]
  show Char.ofNat (((d1.toNat - 48) * 8 + (d2.toNat - 48)) * 8 + (d3.toNat - 48)) ::
    unescape r = _
  congr 2
  omega

lemma unescape_oct2 {d1 d2 : Char} (h1 : isOctD d1 = true) (h2 : isOctD d2 = true)
    (r : Str) (hr : ∀ c, r.head? = some c → isOctD c = false) :
    unescape ('\\' :: d1 :: d2 :: r) =
      Char.ofNat (8 * (d1.toNat - 48) + (d2.toNat - 48)) :: unescape r := by
  conv_lhs => rw [show unescape ('\\' :: d1 :: d2 :: r) =
    (unescB (d1 :: d2 :: r)).getD [] from rfl]
  rcases r with _ | ⟨e, r2⟩
  · rw [unescB_oct2_nil h1 h2]
    show Char.ofNat ((d1.toNat - 48) * 8 + (d2.toNat - 48)) :: unescape [] = _
    congr 2
    omega
  · have he : isOctD e = false := hr e rfl
    by_cases hbs : e = '\\'
    · subst hbs
      rw [unescB_oct2_bs h1 h2, unescB_eq_some r2]
      show Char.ofNat ((d1.toNat - 48) * 8 + (d2.toNat - 48)) ::
        unescape ('\\' :: r2) = _
      congr 2
      omega
    · rw [unescB_oct2_other h1 h2 he hbs, unesc_eq_some r2,
        unescape_cons r2 hbs]
      show Char.ofNat ((d1.toNat - 48) * 8 + (d2.toNat - 48)) ::
        e :: unescape r2 = _
      congr 2
      omega

lemma unescape_oct1 {d1 : Char} (h1 : isOctD d1 = true) (r : Str)
    (hr : ∀ c, r.head? = some c → isOctD c = false) :
    unescape ('\\' :: d1 :: r) = Char.ofNat (d1.toNat - 48) :: unescape r := by
  conv_lhs => rw [show unescape ('\\' :: d1 :: r) =
    (unescB (d1 :: r)).getD [] from rfl]
  rcases r with _ | ⟨e, r2⟩
  · rw [unescB_oct1_nil h1]
    rfl
  · have he : isOctD e = false := hr e rfl
    by_cases hbs : e = '\\'
    · subst hbs
      rw [unescB_oct1_bs h1, unescB_eq_some r2]
      rfl
    · rw [unescB_oct1_other h1 he hbs, unesc_eq_some r2, unescape_cons r2 hbs]
      rfl

lemma unescape_hex {a b : Char} (ha : isHexD a = true) (hb : isHexD b = true)
    (r : Str) :
    unescape ('\\' :: 'x' :: a :: b :: r) =
      Char.ofNat (16 * hexVal a + hexVal b) :: unescape r := by
  conv_lhs => rw [show unescape ('\\' :: 'x' :: a :: b :: r) =
    (unescB ('x' :: a :: b :: r)).getD [] from rfl]
  rw [unescB_x2 ha hb, unesc_eq_some r]
  show Char.ofNat (hexVal a * 16 + hexVal b) :: unescape r = _
  congr 2
  omega

/-- Predicate from the claim about the escape decoder: the list begins
with the body of a recognised escape (a named escape character, an
octal digit, or x followed by exactly two hexadecimal digits). -/
def escStarts : Str → Bool
  | [] => false
  | c :: rest =>
    c = 'n' || c = 't' || c = 'r' || c = '\\' || c = '\"' || isOctD c ||
      (c = 'x' &&
        match rest with
        | a :: b :: _ => isHexD a && isHexD b
        | _ => false)

lemma unescape_pass (r : Str) (h : escStarts r = false) :
    unescape ('\\' :: r) = '\\' :: unescape r := by
  conv_lhs => rw [show unescape ('\\' :: r) = (unescB r).getD [] from rfl]
  rcases r with _ | ⟨c, rest⟩
  · rfl
  · simp only [escStarts, Bool.or_eq_false_iff, Bool.and_eq_false_iff,
      decide_eq_false_iff_not] at h
    obtain ⟨⟨⟨⟨⟨⟨hn, ht⟩, hrr⟩, hb⟩, hq⟩, ho⟩, hx⟩ := h
    by_cases hcx : c = 'x'
    · subst hcx
      rcases hx with hx | hx
      · exact absurd rfl hx
      · rw [unescape_cons rest (by decide : ¬ ('x' = '\\'))]
        rcases rest with _ | ⟨a, _ | ⟨b, r3⟩⟩
        · rw [unescB_x_nil]
          rfl
        · by_cases hab : a = '\\'
          · subst hab
            rw [unescB_x_bs1]
            rfl
          · rcases hha : isHexD a with _ | _
            · rw [unescB_x_fail1 hha hab, unescape_cons [] hab]
              rfl
            · rw [unescB_x1 hha, unescape_cons [] hab]
              rfl
        · by_cases hab : a = '\\'
          · subst hab
            rw [unescB_x_bs1, unescB_eq_some (b :: r3)]
            rfl
          · rcases hha : isHexD a with _ | _
            · rw [unescB_x_fail1 hha hab, unesc_eq_some (b :: r3),
                unescape_cons (b :: r3) hab]
              rfl
            · have hx2 : (isHexD a && isHexD b) = false := hx
              have hhb : isHexD b = false := by
                rw [hha] at hx2
                simpa using hx2
              by_cases hbb : b = '\\'
              · subst hbb
                rw [unescB_x_bs2 hha, unescB_eq_some r3,
                  unescape_cons ('\\' :: r3) hab]
                rfl
              · rw [unescB_x_fail2 hha hhb hbb, unesc_eq_some r3,
                  unescape_cons (b :: r3) hab, unescape_cons r3 hbb]
                rfl
    · rw [unescB_other hn ht hrr hb hq ho hcx, unesc_eq_some rest,
        unescape_cons rest hb]
      rfl

end UnescapeEquations

section ParserLemmas

lemma kw_comma_flags : S "#," = ['#', ','] := rfl

lemma kw_hash : S "#" = ['#'] := rfl

lemma kw_msgctxt : S "msgctxt" = ['m', 's', 'g', 'c', 't', 'x', 't'] := rfl

lemma kw_msgid_plural :
    S "msgid_plural" = ['m', 's', 'g', 'i', 'd', '_', 'p', 'l', 'u', 'r', 'a', 'l'] := rfl

lemma kw_msgid : S "msgid" = ['m', 's', 'g', 'i', 'd'] := rfl

lemma kw_msgstr_br : S "msgstr[" = ['m', 's', 'g', 's', 't', 'r', '['] := rfl

lemma kw_msgstr : S "msgstr" = ['m', 's', 'g', 's', 't', 'r'] := rfl

lemma startsWithS_mono : ∀ {p1 p2 s : Str}, startsWithS p1 p2 = true →
    startsWithS p2 s = true → startsWithS p1 s = true
  | [], _, _, _, _ => rfl
  | _ :: _, [], _, h, _ => by simp [startsWithS] at h
  | _ :: _, _ :: _, [], _, h => by simp [startsWithS] at h
  | p :: ps, q :: qs, c :: cs, h1, h2 => by
    simp only [startsWithS, Bool.and_eq_true, decide_eq_true_eq] at h1 h2 ⊢
    exact ⟨h1.1.trans h2.1, startsWithS_mono h1.2 h2.2⟩

lemma startsWithS_exists : ∀ {p s : Str}, startsWithS p s = true →
    ∃ t, s = p ++ t
  | [], s, _ => ⟨s, rfl⟩
  | _ :: _, [], h => by simp [startsWithS] at h
  | p :: ps, c :: cs, h => by
    simp only [startsWithS, Bool.and_eq_true, decide_eq_true_eq] at h
    obtain ⟨t, ht⟩ := startsWithS_exists h.2
    exact ⟨t, by rw [h.1, ht]; rfl⟩

lemma lstrip_head_not_space : ∀ {s : Str} {c : Char},
    (lstripWs s).head? = some c → isSpaceC c = false := by
  intro s
  induction s with
  | nil => intro c h; exact absurd h (by simp [lstripWs])
  | cons a r ih =>
    intro c h
    rw [lstripWs, List.dropWhile_cons] at h
    by_cases ha : isSpaceC a
    · rw [if_pos ha] at h
      exact ih h
    · rw [if_neg ha] at h
      injection h with h
      subst h
      exact Bool.not_eq_true _ |>.mp ha

lemma stripWs_eq_nil {s : Str} (h : stripWs s = []) : lstripWs s = [] := by
  unfold stripWs at h
  have h2 : (lstripWs s).reverse.dropWhile isSpaceC = [] := by
    have := congrArg List.reverse h
    simpa [lstripWs] using this
  rw [List.dropWhile_eq_nil_iff] at h2
  rcases e : lstripWs s with _ | ⟨c, r⟩
  · rfl
  · have hc : isSpaceC c = false := lstrip_head_not_space (by rw [e]; rfl)
    have : isSpaceC c = true := h2 c (by simp [e])
    rw [hc] at this
    exact absurd this (by simp)

lemma stripWs_cons_ne_nil {c : Char} {r : Str} (h : isSpaceC c = false) :
    ¬ stripWs (c :: r) = [] := by
  intro he
  have := stripWs_eq_nil he
  rw [lstripWs, List.dropWhile_cons, if_neg (by rw [h]; simp)] at this
  exact List.noConfusion this

lemma startsWithS_false_of_lstrip {s : Str} {q p1 : Char} (ps : Str)
    (h : (lstripWs s).head? = some q) (hp : isSpaceC p1 = false)
    (hne : ¬ p1 = q) : startsWithS (p1 :: ps) s = false := by
  induction s with
  | nil => exact absurd h (by simp [lstripWs])
  | cons a r ih =>
    rw [lstripWs, List.dropWhile_cons] at h
    by_cases ha : isSpaceC a
    · rw [if_pos ha] at h
      have hne2 : ¬ p1 = a := fun e => by rw [e, ha] at hp; exact Bool.noConfusion hp
      simp [startsWithS, hne2]
    · rw [if_neg ha] at h
      injection h with h
      subst h
      simp [startsWithS, hne]

lemma quote_line_ne_nil {s : Str} (h : (lstripWs s).head? = some '\"') :
    ¬ stripWs s = [] := by
  intro he
  rw [stripWs_eq_nil he] at h
  exact Option.noConfusion h

lemma ne_true_of_false {b : Bool} (h : b = false) : ¬ b = true := by simp [h]

/-- Field update performed by a continuation line, as the claim about
continuation lines describes it: the decoded literal is appended to the
field the active target names, and with no active target the state is
unchanged. -/
def contAppend (st : PState) (v : Str) : PState :=
  match st.active with
  | none => st
  | some Target.tctxt => { st with msgctxt := some ((st.msgctxt.getD []) ++ v) }
  | some Target.tid => { st with msgid := some ((st.msgid.getD []) ++ v) }
  | some Target.tplural => { st with msgid_plural := some ((st.msgid_plural.getD []) ++ v) }
  | some (Target.tstr i) =>
    { st with msgstr := dictInsert st.msgstr i ((dictGet st.msgstr i).getD [] ++ v) }

/-- Text between the bracket of a msgstr[ line and the first closing
bracket, with the slice taken exactly as the source takes it (a missing
bracket gives the Python index -1, hence the slice up to the last
character). -/
def brIndexText (line : Str) : Str :=
  match line.findIdx? (fun c => c = ']') with
  | some close => (line.take close).drop 7
  | none => line.dropLast.drop 7

/-- Remainder of a msgstr[ line after the first closing bracket, again
sliced as the source slices it. -/
def brRest (line : Str) : Str :=
  match line.findIdx? (fun c => c = ']') with
  | some close => line.drop (close + 1)
  | none => line

lemma step_other (st : PState) (msgs : List Record) (line : Str)
    (hblank : ¬ stripWs line = [])
    (hh : startsWithS (S "#") line = false)
    (hc : startsWithS (S "msgctxt") line = false)
    (hi : startsWithS (S "msgid") line = false)
    (hs : startsWithS (S "msgstr") line = false)
    (hq : ¬ (lstripWs line).head? = some '\"') :
    step (st, msgs) line = some (st, msgs) := by
  have g2 : startsWithS (S "#,") line = false := by
    cases e : startsWithS (S "#,") line
    · rfl
    · exact absurd (startsWithS_mono (by decide) e) (ne_true_of_false hh)
  have g5 : startsWithS (S "msgid_plural") line = false := by
    cases e : startsWithS (S "msgid_plural") line
    · rfl
    · exact absurd (startsWithS_mono (by decide) e) (ne_true_of_false hi)
  have g7 : startsWithS (S "msgstr[") line = false := by
    cases e : startsWithS (S "msgstr[") line
    · rfl
    · exact absurd (startsWithS_mono (by decide) e) (ne_true_of_false hs)
  simp only [step]
  rw [if_neg hblank, if_neg (ne_true_of_false g2), if_neg (ne_true_of_false hh),
    if_neg (ne_true_of_false hc), if_neg (ne_true_of_false g5),
    if_neg (ne_true_of_false hi), if_neg (ne_true_of_false g7),
    if_neg (ne_true_of_false hs), if_neg hq]

lemma step_continuation (st : PState) (msgs : List Record) (line : Str) (v : Str)
    (hq : (lstripWs line).head? = some '\"')
    (hv : parseQuoted line = some v) :
    step (st, msgs) line = some (contAppend st v, msgs) := by
  have g2 : startsWithS (S "#,") line = false := by
    rw [kw_comma_flags]
    exact startsWithS_false_of_lstrip _ hq (by decide) (by decide)
  have g3 : startsWithS (S "#") line = false := by
    rw [kw_hash]
    exact startsWithS_false_of_lstrip _ hq (by decide) (by decide)
  have g4 : startsWithS (S "msgctxt") line = false := by
    rw [kw_msgctxt]
    exact startsWithS_false_of_lstrip _ hq (by decide) (by decide)
  have g5 : startsWithS (S "msgid_plural") line = false := by
    rw [kw_msgid_plural]
    exact startsWithS_false_of_lstrip _ hq (by decide) (by decide)
  have g6 : startsWithS (S "msgid") line = false := by
    rw [kw_msgid]
    exact startsWithS_false_of_lstrip _ hq (by decide) (by decide)
  have g7 : startsWithS (S "msgstr[") line = false := by
    rw [kw_msgstr_br]
    exact startsWithS_false_of_lstrip _ hq (by decide) (by decide)
  have g8 : startsWithS (S "msgstr") line = false := by
    rw [kw_msgstr]
    exact startsWithS_false_of_lstrip _ hq (by decide) (by decide)
  simp only [step]
  rw [if_neg (quote_line_ne_nil hq), if_neg (ne_true_of_false g2),
    if_neg (ne_true_of_false g3), if_neg (ne_true_of_false g4),
    if_neg (ne_true_of_false g5), if_neg (ne_true_of_false g6),
    if_neg (ne_true_of_false g7), if_neg (ne_true_of_false g8), if_pos hq, hv]
  rcases ha : st.active with _ | t
  · simp [contAppend, ha]
  · cases t <;> simp [contAppend, ha]

lemma step_msgstr_br (st : PState) (msgs : List Record) (line : Str)
    (h : startsWithS (S "msgstr[") line = true) :
    step (st, msgs) line =
      match pyIntOpt 10 (brIndexText line) with
      | none => none
      | some n =>
        match parseQuoted (brRest line) with
        | none => none
        | some v =>
          some ({ st with msgstr := dictInsert st.msgstr n v,
                          active := some (Target.tstr n) }, msgs) := by
  obtain ⟨t, rfl⟩ := startsWithS_exists h
  rw [kw_msgstr_br] at h ⊢
  have g1 : ¬ stripWs (['m', 's', 'g', 's', 't', 'r', '['] ++ t) = [] :=
    stripWs_cons_ne_nil (by decide)
  have g2 : startsWithS (S "#,") (['m', 's', 'g', 's', 't', 'r', '['] ++ t) = false := by
    rw [kw_comma_flags]
    rfl
  have g3 : startsWithS (S "#") (['m', 's', 'g', 's', 't', 'r', '['] ++ t) = false := by
    rw [kw_hash]
    rfl
  have g4 : startsWithS (S "msgctxt") (['m', 's', 'g', 's', 't', 'r', '['] ++ t) = false := by
    rw [kw_msgctxt]
    rfl
  have g5 : startsWithS (S "msgid_plural") (['m', 's', 'g', 's', 't', 'r', '['] ++ t) = false := by
    rw [kw_msgid_plural]
    rfl
  have g6 : startsWithS (S "msgid") (['m', 's', 'g', 's', 't', 'r', '['] ++ t) = false := by
    rw [kw_msgid]
    rfl
  simp only [step]
  rw [if_neg g1, if_neg (ne_true_of_false g2), if_neg (ne_true_of_false g3),
    if_neg (ne_true_of_false g4), if_neg (ne_true_of_false g5),
    if_neg (ne_true_of_false g6), if_pos (by rw [kw_msgstr_br]; exact h)]
  rcases hf : (['m', 's', 'g', 's', 't', 'r', '['] ++ t).findIdx? (fun c => c = ']')
      with _ | close <;>
    simp only [brIndexText, brRest, hf]

lemma step_flush (st : PState) (msgs : List Record) (line : Str)
    (h : stripWs line = []) :
    step (st, msgs) line = some (flushSM st msgs) := by
  simp only [step]
  rw [if_pos h]

lemma flushSM_none (st : PState) (msgs : List Record) (h : st.msgid = none) :
    flushSM st msgs = (initState, msgs) := by
  simp [flushSM, h]

lemma flushSM_some (st : PState) (msgs : List Record) (i : Str)
    (h : st.msgid = some i) :
    flushSM st msgs =
      (initState, msgs ++ [⟨st.msgctxt, i, st.msgid_plural, st.msgstr, st.flags⟩]) := by
  simp [flushSM, h]

end ParserLemmas

section AssemblerLemmas

/-- Catalog contributions of a record sequence, in order: the key and
value of every non-fuzzy record. -/
def contribs (msgs : List Record) : List (Str × Str) := msgs.filterMap recordEntry

lemma foldl_max_mem : ∀ (xs : List Int) (x : Int), xs.foldl max x ∈ x :: xs := by
  intro xs
  induction xs with
  | nil => intro x; simp
  | cons y ys ih =>
    intro x
    simp only [List.foldl_cons]
    have h := ih (max x y)
    rcases List.mem_cons.mp h with h | h
    · rcases max_choice x y with e | e
      · rw [h, e]
        exact List.mem_cons_self _ _
      · rw [h, e]
        exact List.mem_cons_of_mem _ (List.mem_cons_self _ _)
    · exact List.mem_cons_of_mem _ (List.mem_cons_of_mem _ h)

lemma foldl_max_le : ∀ (xs : List Int) (x : Int),
    x ≤ xs.foldl max x ∧ ∀ k ∈ xs, k ≤ xs.foldl max x := by
  intro xs
  induction xs with
  | nil => intro x; simp
  | cons y ys ih =>
    intro x
    simp only [List.foldl_cons]
    obtain ⟨h1, h2⟩ := ih (max x y)
    refine ⟨le_trans (le_max_left x y) h1, ?_⟩
    intro k hk
    rcases List.mem_cons.mp hk with e | e
    · subst e
      exact le_trans (le_max_right x k) h1
    · exact h2 k e

lemma maxKeyD_mem {l : List Int} (h : ¬ l = []) : maxKeyD l ∈ l := by
  rcases l with _ | ⟨x, xs⟩
  · exact absurd rfl h
  · exact foldl_max_mem xs x

lemma maxKeyD_le {l : List Int} : ∀ k ∈ l, k ≤ maxKeyD l := by
  rcases l with _ | ⟨x, xs⟩
  · simp
  · intro k hk
    rcases List.mem_cons.mp hk with e | e
    · subst e
      exact (foldl_max_le xs k).1
    · exact (foldl_max_le xs x).2 k e

lemma dictGet_insert {κ ν : Type} [DecidableEq κ] :
    ∀ (d : List (κ × ν)) (k0 : κ) (v : ν) (k : κ),
    dictGet (dictInsert d k0 v) k = if k = k0 then some v else dictGet d k := by
  intro d
  induction d with
  | nil =>
    intro k0 v k
    show dictGet [(k0, v)] k = if k = k0 then some v else none
    by_cases e : k = k0
    · subst e
      simp [dictGet]
    · simp only [dictGet]
      rw [if_neg (fun h => e h.symm), if_neg e]
  | cons kv rest ih =>
    intro k0 v k
    by_cases e : kv.1 = k0
    · show dictGet (if kv.1 = k0 then (k0, v) :: rest else kv :: dictInsert rest k0 v) k = _
      rw [if_pos e]
      by_cases e2 : k = k0
      · subst e2
        simp [dictGet]
      · rw [if_neg e2]
        simp only [dictGet]
        rw [if_neg (fun h => e2 h.symm),
          if_neg (show ¬ kv.1 = k from fun h => e2 ((e.symm.trans h).symm))]
    · show dictGet (if kv.1 = k0 then (k0, v) :: rest else kv :: dictInsert rest k0 v) k = _
      rw [if_neg e]
      simp only [dictGet]
      by_cases e2 : kv.1 = k
      · have e3 : ¬ k = k0 := fun h => e (e2.trans h)
        rw [if_pos e2, if_neg e3, if_pos e2]
      · rw [if_neg e2, ih]
        by_cases e3 : k = k0
        · rw [if_pos e3, if_pos e3]
        · rw [if_neg e3, if_neg e3, if_neg e2]

lemma mem_keys_dictInsert {κ ν : Type} [DecidableEq κ] :
    ∀ (d : List (κ × ν)) (k0 : κ) (v : ν) (a : κ),
    a ∈ (dictInsert d k0 v).map Prod.fst ↔ a ∈ d.map Prod.fst ∨ a = k0 := by
  intro d
  induction d with
  | nil => intro k0 v a; simp [dictInsert]
  | cons kv rest ih =>
    intro k0 v a
    show a ∈ ((if kv.1 = k0 then (k0, v) :: rest
        else kv :: dictInsert rest k0 v).map Prod.fst) ↔ _
    by_cases e : kv.1 = k0
    · rw [if_pos e]
      simp [e]
      tauto
    · rw [if_neg e]
      simp [ih]
      tauto

lemma dictInsert_nodup {κ ν : Type} [DecidableEq κ] :
    ∀ (d : List (κ × ν)) (k0 : κ) (v : ν),
    (d.map Prod.fst).Nodup → ((dictInsert d k0 v).map Prod.fst).Nodup := by
  intro d
  induction d with
  | nil => intro k0 v _; simp [dictInsert]
  | cons kv rest ih =>
    intro k0 v h
    simp only [List.map_cons, List.nodup_cons] at h
    show (((if kv.1 = k0 then (k0, v) :: rest
        else kv :: dictInsert rest k0 v)).map Prod.fst).Nodup
    by_cases e : kv.1 = k0
    · rw [if_pos e]
      simp only [List.map_cons, List.nodup_cons]
      exact ⟨by rw [← e]; exact h.1, h.2⟩
    · rw [if_neg e]
      simp only [List.map_cons, List.nodup_cons]
      refine ⟨?_, ih k0 v h.2⟩
      intro hmem
      rcases (mem_keys_dictInsert rest k0 v kv.1).mp hmem with hm | hm
      · exact h.1 hm
      · exact e hm

lemma dictGet_none_iff {κ ν : Type} [DecidableEq κ] :
    ∀ (d : List (κ × ν)) (k : κ), dictGet d k = none ↔ k ∉ d.map Prod.fst := by
  intro d
  induction d with
  | nil => intro k; simp [dictGet]
  | cons kv rest ih =>
    intro k
    simp only [dictGet, List.map_cons, List.mem_cons]
    by_cases e : kv.1 = k
    · rw [if_pos e]
      simp [e]
    · rw [if_neg e]
      rw [ih]
      constructor
      · intro h h2
        rcases h2 with h2 | h2
        · exact e h2.symm
        · exact h h2
      · intro h h2
        exact h (Or.inr h2)

lemma dictGet_append {κ ν : Type} [DecidableEq κ] :
    ∀ (d1 d2 : List (κ × ν)) (k : κ),
    dictGet (d1 ++ d2) k =
      match dictGet d1 k with
      | some w => some w
      | none => dictGet d2 k := by
  intro d1
  induction d1 with
  | nil => intro d2 k; rfl
  | cons kv rest ih =>
    intro d2 k
    show dictGet (kv :: (rest ++ d2)) k = _
    simp only [dictGet]
    by_cases e : kv.1 = k
    · rw [if_pos e, if_pos e]
    · rw [if_neg e, if_neg e, ih]

lemma setdefaultD_get {κ ν : Type} [DecidableEq κ] (d : List (κ × ν)) (k0 : κ)
    (v0 : ν) (k : κ) :
    dictGet (setdefaultD d k0 v0) k =
      match dictGet d k with
      | some w => some w
      | none => if k = k0 then some v0 else none := by
  unfold setdefaultD
  rcases e : dictGet d k0 with _ | w
  · rw [dictGet_append]
    rcases e2 : dictGet d k with _ | u
    · simp only [dictGet]
      by_cases e3 : k0 = k
      · rw [if_pos e3, if_pos e3.symm]
      · rw [if_neg e3, if_neg (fun h => e3 h.symm)]
    · rfl
  · rcases e2 : dictGet d k with _ | u
    · have e3 : ¬ k = k0 := fun h => by rw [h, e] at e2; exact Option.noConfusion e2
      show none = if k = k0 then some v0 else none
      rw [if_neg e3]
    · rfl

lemma setdefaultD_nodup {κ ν : Type} [DecidableEq κ] (d : List (κ × ν)) (k0 : κ)
    (v0 : ν) (h : (d.map Prod.fst).Nodup) :
    ((setdefaultD d k0 v0).map Prod.fst).Nodup := by
  unfold setdefaultD
  rcases e : dictGet d k0 with _ | w
  · rw [List.map_append]
    rw [List.nodup_append]
    refine ⟨h, by simp, ?_⟩
    intro a ha hb
    simp at hb
    rw [hb] at ha
    exact ((dictGet_none_iff d k0).mp e) ha
  · exact h

lemma foldl_contribs : ∀ (msgs : List Record) (cat0 : List (Str × Str)),
    msgs.foldl
      (fun cat r =>
        match recordEntry r with
        | none => cat
        | some kv => dictInsert cat kv.1 kv.2)
      cat0 =
    (contribs msgs).foldl (fun cat kv => dictInsert cat kv.1 kv.2) cat0 := by
  intro msgs
  induction msgs with
  | nil => intro cat0; rfl
  | cons r rest ih =>
    intro cat0
    rcases e : recordEntry r with _ | kv <;>
      simp only [List.foldl_cons, contribs, List.filterMap_cons, e] <;>
      rw [show contribs rest = rest.filterMap recordEntry from rfl] at ih <;>
      simp only [ih]

lemma dictGet_foldl : ∀ (l : List (Str × Str)) (cat0 : List (Str × Str)) (k : Str),
    dictGet (l.foldl (fun cat kv => dictInsert cat kv.1 kv.2) cat0) k =
      match l.reverse.find? (fun kv => kv.1 = k) with
      | some kv => some kv.2
      | none => dictGet cat0 k := by
  intro l
  induction l with
  | nil => intro cat0 k; rfl
  | cons kv rest ih =>
    intro cat0 k
    simp only [List.foldl_cons, List.reverse_cons]
    rw [ih, List.find?_append]
    rcases e : rest.reverse.find? (fun kv => decide (kv.1 = k)) with _ | w
    · rw [e]
      simp only [Option.none_orElse]
      by_cases e2 : kv.1 = k
      · simp [e2, dictGet_insert]
      · have e3 : ¬ k = kv.1 := fun h => e2 h.symm
        simp [e2, e3, dictGet_insert]
    · rw [e]
      simp

lemma foldl_nodup : ∀ (l : List (Str × Str)) (cat0 : List (Str × Str)),
    (cat0.map Prod.fst).Nodup →
    ((l.foldl (fun cat kv => dictInsert cat kv.1 kv.2) cat0).map Prod.fst).Nodup := by
  intro l
  induction l with
  | nil => intro cat0 h; exact h
  | cons kv rest ih =>
    intro cat0 h
    exact ih _ (dictInsert_nodup cat0 kv.1 kv.2 h)

end AssemblerLemmas

section OrderLemmas

lemma charsLtB_asymm : ∀ {a b : Str}, charsLtB a b = true → charsLtB b a = false
  | _, [], h => by simp [charsLtB] at h
  | [], _ :: _, _ => rfl
  | a :: as, b :: bs, h => by
    simp only [charsLtB] at h ⊢
    by_cases h1 : a.toNat < b.toNat
    · rw [if_neg (by omega), if_neg (by omega)]
    · rw [if_neg h1] at h
      by_cases h2 : a.toNat = b.toNat
      · rw [if_pos h2] at h
        rw [if_neg (by omega), if_pos h2.symm]
        exact charsLtB_asymm h
      · rw [if_neg h2] at h
        exact Bool.noConfusion h

lemma charsLtB_trans : ∀ {a b c : Str}, charsLtB a b = true →
    charsLtB b c = true → charsLtB a c = true
  | _, _, [], _, h2 => by simp [charsLtB] at h2
  | _, [], _ :: _, h1, _ => by simp [charsLtB] at h1
  | [], _ :: _, _ :: _, _, _ => rfl
  | a :: as, b :: bs, c :: cs, h1, h2 => by
    simp only [charsLtB] at h1 h2 ⊢
    by_cases e1 : a.toNat < b.toNat
    · by_cases e2 : b.toNat < c.toNat
      · rw [if_pos (by omega)]
      · rw [if_neg e2] at h2
        by_cases e3 : b.toNat = c.toNat
        · rw [if_pos (by omega)]
        · rw [if_neg e3] at h2
          exact Bool.noConfusion h2
    · rw [if_neg e1] at h1
      by_cases e3 : a.toNat = b.toNat
      · rw [if_pos e3] at h1
        by_cases e2 : b.toNat < c.toNat
        · rw [if_pos (by omega)]
        · rw [if_neg e2] at h2
          by_cases e4 : b.toNat = c.toNat
          · rw [if_neg (by omega), if_pos (by omega)]
            rw [if_pos e4] at h2
            exact charsLtB_trans h1 h2
          · rw [if_neg e4] at h2
            exact Bool.noConfusion h2
      · rw [if_neg e3] at h1
        exact Bool.noConfusion h1

lemma charsLtB_connex : ∀ {a b : Str}, charsLtB a b = false →
    charsLtB b a = false → a = b
  | [], [], _, _ => rfl
  | [], _ :: _, h1, _ => by simp [charsLtB] at h1
  | _ :: _, [], _, h2 => by simp [charsLtB] at h2
  | a :: as, b :: bs, h1, h2 => by
    simp only [charsLtB] at h1 h2
    by_cases e1 : a.toNat < b.toNat
    · rw [if_pos e1] at h1
      exact Bool.noConfusion h1
    · rw [if_neg e1] at h1
      by_cases e2 : b.toNat < a.toNat
      · rw [if_pos e2] at h2
        exact Bool.noConfusion h2
      · have e3 : a.toNat = b.toNat := by omega
        rw [if_pos e3] at h1
        rw [if_neg e2, if_pos e3.symm] at h2
        rw [charToNat_inj e3, charsLtB_connex h1 h2]

instance : IsTrans (Str × Str) entryLe :=
  ⟨by
    intro a b c h1 h2
    unfold entryLe at h1 h2 ⊢
    cases e : charsLtB c.1 a.1
    · rfl
    · by_cases e2 : charsLtB b.1 a.1 = true
      · rw [e2] at h1
        exact Bool.noConfusion h1
      · by_cases e3 : charsLtB a.1 b.1 = true
        · have := charsLtB_trans e e3
          rw [this] at h2
          exact Bool.noConfusion h2
        · have heq : a.1 = b.1 :=
            charsLtB_connex (Bool.not_eq_true _ |>.mp e3) (Bool.not_eq_true _ |>.mp e2)
          rw [← heq, e] at h2
          exact Bool.noConfusion h2⟩

instance : IsTotal (Str × Str) entryLe :=
  ⟨by
    intro a b
    unfold entryLe
    by_cases e : charsLtB b.1 a.1 = true
    · right
      exact charsLtB_asymm e
    · left
      exact Bool.not_eq_true _ |>.mp e⟩

lemma sortEntries_sorted (c : List (Str × Str)) :
    List.Sorted entryLe (sortEntries c) :=
  List.sorted_insertionSort entryLe c

lemma sortEntries_perm (c : List (Str × Str)) : (sortEntries c).Perm c :=
  List.perm_insertionSort entryLe c

lemma sortEntries_keys_nodup {c : List (Str × Str)}
    (h : (c.map Prod.fst).Nodup) : ((sortEntries c).map Prod.fst).Nodup :=
  (((sortEntries_perm c).map Prod.fst).nodup_iff).mpr h

lemma sortEntries_pairwise_lt {c : List (Str × Str)}
    (h : (c.map Prod.fst).Nodup) :
    List.Pairwise (fun a b => charsLtB a.1 b.1 = true) (sortEntries c) := by
  have hs : List.Pairwise entryLe (sortEntries c) := sortEntries_sorted c
  have hn : List.Pairwise (fun a b : Str × Str => ¬ a.1 = b.1) (sortEntries c) :=
    List.pairwise_map.mp (sortEntries_keys_nodup h)
  refine (hs.and hn).imp ?_
  intro a b hab
  obtain ⟨hle, hne⟩ := hab
  unfold entryLe at hle
  cases e : charsLtB a.1 b.1
  · exact absurd (charsLtB_connex e hle) hne
  · rfl

end OrderLemmas

section Utf8Lemmas

lemma char_toNat_lt (c : Char) : c.toNat < 1114112 := by
  have h := c.valid
  unfold UInt32.isValidChar Nat.isValidChar at h
  rcases h with h | ⟨h1, h2⟩
  · exact Nat.lt_trans h (by norm_num)
  · exact h2

lemma u8_1 {c : Nat} (h : c < 128) : utf8Bytes c = [c] := by
  rw [utf8Bytes, if_pos h]

lemma u8_2 {c : Nat} (h1 : ¬ c < 128) (h2 : c < 2048) :
    utf8Bytes c = [192 + c / 64, 128 + c % 64] := by
  rw [utf8Bytes, if_neg h1, if_pos h2]

lemma u8_3 {c : Nat} (h1 : ¬ c < 2048) (h2 : c < 65536) :
    utf8Bytes c = [224 + c / 4096, 128 + c / 64 % 64, 128 + c % 64] := by
  rw [utf8Bytes, if_neg (by omega), if_neg h1, if_pos h2]

lemma u8_4 {c : Nat} (h1 : ¬ c < 65536) :
    utf8Bytes c =
      [240 + c / 262144, 128 + c / 4096 % 64, 128 + c / 64 % 64, 128 + c % 64] := by
  rw [utf8Bytes, if_neg (by omega), if_neg (by omega), if_neg h1]

lemma utf8Bytes_ne_nil (c : Nat) : ¬ utf8Bytes c = [] := by
  unfold utf8Bytes
  split
  · simp
  · split
    · simp
    · split <;> simp

lemma utf8_lt_decomp {a b : Nat} (hab : a < b) (hb : b < 1114112) :
    ∃ p x y u v, utf8Bytes a = p ++ x :: u ∧ utf8Bytes b = p ++ y :: v ∧ x < y := by
  by_cases ha1 : a < 128
  · by_cases hb1 : b < 128
    · exact ⟨[], a, b, [], [], by rw [u8_1 ha1]; rfl, by rw [u8_1 hb1]; rfl, hab⟩
    · by_cases hb2 : b < 2048
      · exact ⟨[], a, 192 + b / 64, [], [128 + b % 64],
          by rw [u8_1 ha1]; rfl, by rw [u8_2 hb1 hb2]; rfl, by omega⟩
      · by_cases hb3 : b < 65536
        · exact ⟨[], a, 224 + b / 4096, [], [128 + b / 64 % 64, 128 + b % 64],
            by rw [u8_1 ha1]; rfl, by rw [u8_3 hb2 hb3]; rfl, by omega⟩
        · exact ⟨[], a, 240 + b / 262144, [],
            [128 + b / 4096 % 64, 128 + b / 64 % 64, 128 + b % 64],
            by rw [u8_1 ha1]; rfl, by rw [u8_4 hb3]; rfl, by omega⟩
  · by_cases ha2 : a < 2048
    · by_cases hb2 : b < 2048
      · by_cases h : a / 64 = b / 64
        · exact ⟨[192 + a / 64], 128 + a % 64, 128 + b % 64, [], [],
            by rw [u8_2 ha1 ha2]; rfl,
            by rw [u8_2 (by omega) hb2, h]; rfl, by omega⟩
        · exact ⟨[], 192 + a / 64, 192 + b / 64, [128 + a % 64], [128 + b % 64],
            by rw [u8_2 ha1 ha2]; rfl,
            by rw [u8_2 (by omega) hb2]; rfl, by omega⟩
      · by_cases hb3 : b < 65536
        · exact ⟨[], 192 + a / 64, 224 + b / 4096, [128 + a % 64],
            [128 + b / 64 % 64, 128 + b % 64],
            by rw [u8_2 ha1 ha2]; rfl, by rw [u8_3 hb2 hb3]; rfl, by omega⟩
        · exact ⟨[], 192 + a / 64, 240 + b / 262144, [128 + a % 64],
            [128 + b / 4096 % 64, 128 + b / 64 % 64, 128 + b % 64],
            by rw [u8_2 ha1 ha2]; rfl, by rw [u8_4 hb3]; rfl, by omega⟩
    · by_cases ha3 : a < 65536
      · by_cases hb3 : b < 65536
        · by_cases h1 : a / 4096 = b / 4096
          · by_cases h2 : a / 64 % 64 = b / 64 % 64
            · exact ⟨[224 + a / 4096, 128 + a / 64 % 64], 128 + a % 64,
                128 + b % 64, [], [],
                by rw [u8_3 ha2 ha3]; rfl,
                by rw [u8_3 (by omega) hb3, h1, h2]; rfl, by omega⟩
            · exact ⟨[224 + a / 4096], 128 + a / 64 % 64, 128 + b / 64 % 64,
                [128 + a % 64], [128 + b % 64],
                by rw [u8_3 ha2 ha3]; rfl,
                by rw [u8_3 (by omega) hb3, h1]; rfl, by omega⟩
          · exact ⟨[], 224 + a / 4096, 224 + b / 4096,
              [128 + a / 64 % 64, 128 + a % 64],
              [128 + b / 64 % 64, 128 + b % 64],
              by rw [u8_3 ha2 ha3]; rfl,
              by rw [u8_3 (by omega) hb3]; rfl, by omega⟩
        · exact ⟨[], 224 + a / 4096, 240 + b / 262144,
            [128 + a / 64 % 64, 128 + a % 64],
            [128 + b / 4096 % 64, 128 + b / 64 % 64, 128 + b % 64],
            by rw [u8_3 ha2 ha3]; rfl, by rw [u8_4 hb3]; rfl, by omega⟩
      · have hb4 : ¬ b < 65536 := by omega
        by_cases h1 : a / 262144 = b / 262144
        · by_cases h2 : a / 4096 % 64 = b / 4096 % 64
          · by_cases h3 : a / 64 % 64 = b / 64 % 64
            · exact ⟨[240 + a / 262144, 128 + a / 4096 % 64, 128 + a / 64 % 64],
                128 + a % 64, 128 + b % 64, [], [],
                by rw [u8_4 ha3]; rfl,
                by rw [u8_4 hb4, h1, h2, h3]; rfl, by omega⟩
            · exact ⟨[240 + a / 262144, 128 + a / 4096 % 64], 128 + a / 64 % 64,
                128 + b / 64 % 64, [128 + a % 64], [128 + b % 64],
                by rw [u8_4 ha3]; rfl,
                by rw [u8_4 hb4, h1, h2]; rfl, by omega⟩
          · exact ⟨[240 + a / 262144], 128 + a / 4096 % 64, 128 + b / 4096 % 64,
              [128 + a / 64 % 64, 128 + a % 64],
              [128 + b / 64 % 64, 128 + b % 64],
              by rw [u8_4 ha3]; rfl,
              by rw [u8_4 hb4, h1]; rfl, by omega⟩
        · exact ⟨[], 240 + a / 262144, 240 + b / 262144,
            [128 + a / 4096 % 64, 128 + a / 64 % 64, 128 + a % 64],
            [128 + b / 4096 % 64, 128 + b / 64 % 64, 128 + b % 64],
            by rw [u8_4 ha3]; rfl, by rw [u8_4 hb4]; rfl, by omega⟩

lemma natsLtB_append_same : ∀ (p u v : List Nat),
    natsLtB (p ++ u) (p ++ v) = natsLtB u v := by
  intro p
  induction p with
  | nil => intro u v; rfl
  | cons x xs ih =>
    intro u v
    simp only [List.cons_append, natsLtB]
    rw [if_neg (by omega), if_pos trivial]
    exact ih u v

lemma natsLtB_append_lt {x y : Nat} (h : x < y) (p u v : List Nat) :
    natsLtB (p ++ x :: u) (p ++ y :: v) = true := by
  rw [natsLtB_append_same]
  simp only [natsLtB]
  rw [if_pos h]

lemma utf8Str_nil : utf8Str [] = [] := rfl

lemma utf8Str_cons (c : Char) (cs : Str) :
    utf8Str (c :: cs) = utf8Bytes c.toNat ++ utf8Str cs := by
  simp [utf8Str]

lemma charsLtB_utf8 : ∀ {a b : Str}, charsLtB a b = true →
    natsLtB (utf8Str a) (utf8Str b) = true
  | _, [], h => by simp [charsLtB] at h
  | [], y :: ys, _ => by
    rw [utf8Str_nil, utf8Str_cons]
    rcases e : utf8Bytes y.toNat with _ | ⟨w, ws⟩
    · exact absurd e (utf8Bytes_ne_nil _)
    · rfl
  | x :: xs, y :: ys, h => by
    simp only [charsLtB] at h
    rw [utf8Str_cons, utf8Str_cons]
    by_cases e1 : x.toNat < y.toNat
    · obtain ⟨p, a, b, u, v, hx, hy, hlt⟩ := utf8_lt_decomp e1 (char_toNat_lt y)
      rw [hx, hy, List.append_assoc, List.append_assoc, List.cons_append,
        List.cons_append]
      exact natsLtB_append_lt hlt p _ _
    · rw [if_neg e1] at h
      by_cases e2 : x.toNat = y.toNat
      · rw [if_pos e2] at h
        rw [charToNat_inj e2, natsLtB_append_same]
        exact charsLtB_utf8 h
      · rw [if_neg e2] at h
        exact Bool.noConfusion h

end Utf8Lemmas

section LayoutLemmas

/-- Sorted keys of a catalog, UTF-8 encoded, as write_mo computes them. -/
def idsOf (c : List (Str × Str)) : List (List Nat) :=
  (sortEntries c).map (fun e => utf8Str e.1)

/-- Sorted values of a catalog, UTF-8 encoded. -/
def strsOf (c : List (Str × Str)) : List (List Nat) :=
  (sortEntries c).map (fun e => utf8Str e.2)

/-- Offset of the string pool in the output of write_mo. -/
def stringOffset (c : List (Str × Str)) : Nat :=
  28 + (sortEntries c).length * 8 + (sortEntries c).length * 8

/-- Header bytes of the output of write_mo. -/
def headerOf (c : List (Str × Str)) : List Nat :=
  le32 2500072158 ++ le32 0 ++ le32 (sortEntries c).length ++ le32 28 ++
    le32 (28 + (sortEntries c).length * 8) ++ le32 0 ++ le32 0

/-- Output stream shape shared by the layout lemmas. -/
def moStream (H : List Nat) (ids strs : List (List Nat)) (SO : Nat) : List Nat :=
  H ++ (tableBytes (tableOf SO ids) ++
    (tableBytes (tableOf (SO + (poolOf ids).length) strs) ++
      (poolOf ids ++ poolOf strs)))

/-- Combined byte size of a list of pool strings with their NUL bytes. -/
def sizeSum (vs : List (List Nat)) : Nat := (vs.map (fun v => v.length + 1)).sum

lemma write_mo_eq_moStream (c : List (Str × Str)) :
    write_mo c = moStream (headerOf c) (idsOf c) (strsOf c) (stringOffset c) := by
  unfold write_mo moStream headerOf idsOf strsOf stringOffset
  simp [List.append_assoc]

lemma le32_len (n : Nat) : (le32 n).length = 4 := rfl

lemma headerOf_len (c : List (Str × Str)) : (headerOf c).length = 28 := by
  simp [headerOf, le32]

lemma tableBytes_cons (lo : Nat × Nat) (t : List (Nat × Nat)) :
    tableBytes (lo :: t) = (le32 lo.1 ++ le32 lo.2) ++ tableBytes t := by
  simp [tableBytes]

lemma tableBytes_len : ∀ (t : List (Nat × Nat)), (tableBytes t).length = 8 * t.length := by
  intro t
  induction t with
  | nil => rfl
  | cons lo t ih =>
    rw [tableBytes_cons]
    simp only [List.length_append, List.length_cons, ih, le32_len]
    omega

lemma tableOf_len : ∀ (vs : List (List Nat)) (s : Nat), (tableOf s vs).length = vs.length := by
  intro vs
  induction vs with
  | nil => intro s; rfl
  | cons v rest ih =>
    intro s
    simp only [tableOf, List.length_cons, ih]

lemma poolOf_len : ∀ (vs : List (List Nat)), (poolOf vs).length = sizeSum vs := by
  intro vs
  induction vs with
  | nil => rfl
  | cons v rest ih =>
    have h2 : poolOf (v :: rest) = (v ++ [0]) ++ poolOf rest := by
      simp [poolOf, List.append_assoc]
    rw [h2]
    simp only [List.length_append, List.length_cons, List.length_nil, ih, sizeSum,
      List.map_cons, List.sum_cons]

lemma poolOf_eq_flatten : ∀ (vs : List (List Nat)),
    poolOf vs = (vs.map (fun v => v ++ [0])).flatten := by
  intro vs
  induction vs with
  | nil => rfl
  | cons v rest ih =>
    simp only [poolOf, List.map_cons, List.flatten_cons, ih, List.append_assoc]

lemma dropAppend {α : Type} : ∀ (p l : List α) (k : Nat),
    (p ++ l).drop (p.length + k) = l.drop k := by
  intro p
  induction p with
  | nil => intro l k; simp
  | cons x p ih =>
    intro l k
    show List.drop (p.length + 1 + k) (x :: (p ++ l)) = l.drop k
    rw [show p.length + 1 + k = (p.length + k) + 1 from by omega,
      List.drop_succ_cons, ih]

lemma takeAppend {α : Type} : ∀ (p l : List α) (k : Nat),
    (p ++ l).take (p.length + k) = p ++ l.take k := by
  intro p
  induction p with
  | nil => intro l k; simp
  | cons x p ih =>
    intro l k
    show List.take (p.length + 1 + k) (x :: (p ++ l)) = x :: (p ++ l.take k)
    rw [show p.length + 1 + k = (p.length + k) + 1 from by omega,
      List.take_succ_cons, ih]

lemma dropAppendLe {α : Type} : ∀ (p l : List α) (k : Nat), k ≤ p.length →
    (p ++ l).drop k = p.drop k ++ l := by
  intro p
  induction p with
  | nil =>
    intro l k h
    rw [Nat.le_zero.mp h]
    rfl
  | cons x p ih =>
    intro l k h
    rcases k with _ | k
    · rfl
    · show List.drop (k + 1) (x :: (p ++ l)) = List.drop (k + 1) (x :: p) ++ l
      rw [List.drop_succ_cons, List.drop_succ_cons, ih l k (by simpa using h)]

lemma tableBytes_drop : ∀ (t : List (Nat × Nat)) (i : Nat),
    (tableBytes t).drop (8 * i) = tableBytes (t.drop i) := by
  intro t
  induction t with
  | nil => intro i; simp [tableBytes]
  | cons lo t ih =>
    intro i
    rcases i with _ | i
    · rfl
    · rw [tableBytes_cons]
      have h : 8 * (i + 1) = (le32 lo.1 ++ le32 lo.2).length + 8 * i := by
        simp only [List.length_append, le32_len]
        omega
      rw [h, dropAppend, ih, List.drop_succ_cons]

lemma tableOf_drop : ∀ (vs : List (List Nat)) (s i : Nat),
    (tableOf s vs).drop i = tableOf (s + sizeSum (vs.take i)) (vs.drop i) := by
  intro vs
  induction vs with
  | nil => intro s i; simp [tableOf, sizeSum]
  | cons v rest ih =>
    intro s i
    rcases i with _ | i
    · simp [sizeSum]
    · show (tableOf (s + v.length + 1) rest).drop i = _
      rw [ih]
      have h : s + v.length + 1 + sizeSum (rest.take i) =
          s + sizeSum ((v :: rest).take (i + 1)) := by
        simp only [List.take_succ_cons, sizeSum, List.map_cons, List.sum_cons]
        omega
      rw [h, List.drop_succ_cons]

lemma poolOf_drop : ∀ (vs : List (List Nat)) (i : Nat),
    (poolOf vs).drop (sizeSum (vs.take i)) = poolOf (vs.drop i) := by
  intro vs
  induction vs with
  | nil => intro i; simp [poolOf, sizeSum]
  | cons v rest ih =>
    intro i
    rcases i with _ | i
    · simp [sizeSum]
    · show (poolOf (v :: rest)).drop (sizeSum ((v :: rest).take (i + 1))) =
        poolOf (rest.drop i)
      have h : sizeSum ((v :: rest).take (i + 1)) =
          (v ++ [0]).length + sizeSum (rest.take i) := by
        simp only [List.take_succ_cons, sizeSum, List.map_cons, List.sum_cons,
          List.length_append, List.length_cons, List.length_nil]
      have h2 : poolOf (v :: rest) = (v ++ [0]) ++ poolOf rest := by
        simp [poolOf, List.append_assoc]
      rw [h, h2, dropAppend, ih]

lemma sizeSum_take_le : ∀ (vs : List (List Nat)) (i : Nat),
    sizeSum (vs.take i) ≤ sizeSum vs := by
  intro vs
  induction vs with
  | nil => intro i; simp [List.take_nil]
  | cons v rest ih =>
    intro i
    rcases i with _ | i
    · simp [sizeSum]
    · simp only [List.take_succ_cons, sizeSum, List.map_cons, List.sum_cons]
      have := ih i
      simp only [sizeSum] at this
      omega

lemma getD_eq_at {α : Type} (l : List α) (d : α) {i : Nat} (h : i < l.length) :
    l.getD i d = l[i] := by
  rw [List.getD_eq_getElem?_getD, List.getElem?_eq_getElem h]
  rfl

lemma drop_eq_getD_cons {α : Type} {l : List α} {i : Nat} (d : α)
    (h : i < l.length) : l.drop i = l.getD i d :: l.drop (i + 1) := by
  rw [getD_eq_at l d h]
  exact List.drop_eq_getElem_cons h

lemma moStream_id_table (H : List Nat) (ids strs : List (List Nat)) (SO : Nat)
    (hH : H.length = 28) (i : Nat) (hi : i < ids.length) :
    ((moStream H ids strs SO).drop (28 + 8 * i)).take 8 =
      le32 (ids.getD i []).length ++ le32 (SO + sizeSum (ids.take i)) := by
  unfold moStream
  rw [show 28 + 8 * i = H.length + 8 * i from by rw [hH]]
  rw [dropAppend]
  have hlen : 8 * i ≤ (tableBytes (tableOf SO ids)).length := by
    rw [tableBytes_len, tableOf_len]
    omega
  rw [dropAppendLe _ _ _ hlen, tableBytes_drop, tableOf_drop,
    drop_eq_getD_cons [] hi]
  rw [show tableOf (SO + sizeSum (ids.take i)) (ids.getD i [] :: ids.drop (i + 1)) =
    ((ids.getD i []).length, SO + sizeSum (ids.take i)) ::
      tableOf (SO + sizeSum (ids.take i) + (ids.getD i []).length + 1)
        (ids.drop (i + 1)) from rfl]
  rw [tableBytes_cons, List.append_assoc]
  rw [show (8 : Nat) =
    (le32 (ids.getD i []).length ++ le32 (SO + sizeSum (ids.take i))).length + 0 from by
      simp [le32]]
  rw [takeAppend]
  simp

lemma moStream_str_table (H : List Nat) (ids strs : List (List Nat)) (SO : Nat)
    (hH : H.length = 28) (i : Nat) (hi : i < strs.length) :
    ((moStream H ids strs SO).drop (28 + 8 * ids.length + 8 * i)).take 8 =
      le32 (strs.getD i []).length ++
        le32 (SO + (poolOf ids).length + sizeSum (strs.take i)) := by
  unfold moStream
  rw [show 28 + 8 * ids.length + 8 * i =
    H.length + ((tableBytes (tableOf SO ids)).length + 8 * i) from by
      rw [hH, tableBytes_len, tableOf_len]
      omega]
  rw [dropAppend, dropAppend]
  have hlen : 8 * i ≤ (tableBytes (tableOf (SO + (poolOf ids).length) strs)).length := by
    rw [tableBytes_len, tableOf_len]
    omega
  rw [dropAppendLe _ _ _ hlen, tableBytes_drop, tableOf_drop,
    drop_eq_getD_cons [] hi]
  rw [show tableOf (SO + (poolOf ids).length + sizeSum (strs.take i))
      (strs.getD i [] :: strs.drop (i + 1)) =
    ((strs.getD i []).length, SO + (poolOf ids).length + sizeSum (strs.take i)) ::
      tableOf (SO + (poolOf ids).length + sizeSum (strs.take i) +
          (strs.getD i []).length + 1)
        (strs.drop (i + 1)) from rfl]
  rw [tableBytes_cons, List.append_assoc]
  rw [show (8 : Nat) =
    (le32 (strs.getD i []).length ++
      le32 (SO + (poolOf ids).length + sizeSum (strs.take i))).length + 0 from by
      simp [le32]]
  rw [takeAppend]
  simp

lemma moStream_take_header (H : List Nat) (ids strs : List (List Nat)) (SO : Nat)
    (hH : H.length = 28) : (moStream H ids strs SO).take 28 = H := by
  unfold moStream
  rw [← hH, show H.length = H.length + 0 from by omega, takeAppend]
  simp

lemma streamDrop {α : Type} (A B C D : List α) (n : Nat)
    (hn : n = A.length + B.length + C.length) :
    (A ++ (B ++ (C ++ D))).drop n = D := by
  subst hn
  rw [show A.length + B.length + C.length =
    A.length + (B.length + (C.length + 0)) from by omega]
  rw [dropAppend, dropAppend, dropAppend, List.drop_zero]

lemma moStream_drop_SO (H : List Nat) (ids strs : List (List Nat)) (SO : Nat)
    (hH : H.length = 28)
    (hSO : SO = 28 + 8 * ids.length + 8 * strs.length) :
    (moStream H ids strs SO).drop SO = poolOf ids ++ poolOf strs := by
  unfold moStream
  exact streamDrop H _ _ _ SO (by
    rw [hH, tableBytes_len, tableOf_len, tableBytes_len, tableOf_len]
    omega)

lemma moStream_id_pool (H : List Nat) (ids strs : List (List Nat)) (SO : Nat)
    (hH : H.length = 28)
    (hSO : SO = 28 + 8 * ids.length + 8 * strs.length) (i : Nat)
    (hi : i < ids.length) :
    ((moStream H ids strs SO).drop (SO + sizeSum (ids.take i))).take
        ((ids.getD i []).length + 1) =
      ids.getD i [] ++ [0] := by
  rw [← List.drop_drop, moStream_drop_SO H ids strs SO hH hSO]
  have hle : sizeSum (ids.take i) ≤ (poolOf ids).length := by
    rw [poolOf_len]
    exact sizeSum_take_le ids i
  rw [dropAppendLe _ _ _ hle, poolOf_drop, drop_eq_getD_cons [] hi]
  rw [show poolOf (ids.getD i [] :: ids.drop (i + 1)) =
    ids.getD i [] ++ ([0] ++ poolOf (ids.drop (i + 1))) from by
      simp only [poolOf, List.append_assoc]]
  rw [List.append_assoc]
  rw [show (ids.getD i []).length + 1 = (ids.getD i []).length + (1 + 0) from by omega]
  rw [takeAppend]
  congr 1

lemma moStream_str_pool (H : List Nat) (ids strs : List (List Nat)) (SO : Nat)
    (hH : H.length = 28)
    (hSO : SO = 28 + 8 * ids.length + 8 * strs.length) (i : Nat)
    (hi : i < strs.length) :
    ((moStream H ids strs SO).drop
        (SO + (poolOf ids).length + sizeSum (strs.take i))).take
        ((strs.getD i []).length + 1) =
      strs.getD i [] ++ [0] := by
  rw [show SO + (poolOf ids).length + sizeSum (strs.take i) =
    SO + ((poolOf ids).length + sizeSum (strs.take i)) from by omega]
  rw [← List.drop_drop, moStream_drop_SO H ids strs SO hH hSO]
  rw [show (poolOf ids).length + sizeSum (strs.take i) =
    (poolOf ids).length + sizeSum (strs.take i) from rfl]
  rw [show (poolOf ids ++ poolOf strs).drop
      ((poolOf ids).length + sizeSum (strs.take i)) =
    (poolOf strs).drop (sizeSum (strs.take i)) from
      dropAppend (poolOf ids) (poolOf strs) (sizeSum (strs.take i))]
  rw [poolOf_drop, drop_eq_getD_cons [] hi]
  rw [show poolOf (strs.getD i [] :: strs.drop (i + 1)) =
    strs.getD i [] ++ ([0] ++ poolOf (strs.drop (i + 1))) from by
      simp only [poolOf, List.append_assoc]]
  rw [show (strs.getD i []).length + 1 = (strs.getD i []).length + (1 + 0) from by omega]
  rw [takeAppend]
  congr 1

end LayoutLemmas

section ClaimSide

/-- Absolute offset of the i-th key string inside the output of
write_mo, as claim C1 describes it: the pool start plus the sizes of
the earlier keys with their NUL terminators. -/
def idOffAt (c : List (Str × Str)) (i : Nat) : Nat :=
  stringOffset c + sizeSum ((idsOf c).take i)

/-- Absolute offset of the i-th value string inside the output of
write_mo: past the whole key pool and the earlier values. -/
def strOffAt (c : List (Str × Str)) (i : Nat) : Nat :=
  stringOffset c + (poolOf (idsOf c)).length + sizeSum ((strsOf c).take i)

/-- The fixed layout stated by claim C1 for the output of write_mo: the
28-byte header with its seven little-endian fields, the entries in
strictly ascending byte-wise order of the UTF-8 keys, the string pool
of NUL-terminated keys followed by NUL-terminated values, and for each
index both table records with the length and absolute offset of the
corresponding string. -/
def MoLayout (c : List (Str × Str)) : Prop :=
  (write_mo c).take 28 =
      le32 2500072158 ++ le32 0 ++ le32 (sortEntries c).length ++ le32 28 ++
        le32 (28 + (sortEntries c).length * 8) ++ le32 0 ++ le32 0
  ∧ List.Pairwise (fun a b : Str × Str => natsLtB (utf8Str a.1) (utf8Str b.1) = true)
      (sortEntries c)
  ∧ (write_mo c).drop (stringOffset c) =
      ((idsOf c).map (fun v => v ++ [0])).flatten ++
        ((strsOf c).map (fun v => v ++ [0])).flatten
  ∧ ∀ i, i < (sortEntries c).length →
      (idsOf c).getD i [] = utf8Str ((sortEntries c).getD i ([], [])).1
      ∧ (strsOf c).getD i [] = utf8Str ((sortEntries c).getD i ([], [])).2
      ∧ ((write_mo c).drop (28 + 8 * i)).take 8 =
          le32 ((idsOf c).getD i []).length ++ le32 (idOffAt c i)
      ∧ ((write_mo c).drop (idOffAt c i)).take (((idsOf c).getD i []).length + 1) =
          (idsOf c).getD i [] ++ [0]
      ∧ ((write_mo c).drop (28 + 8 * (sortEntries c).length + 8 * i)).take 8 =
          le32 ((strsOf c).getD i []).length ++ le32 (strOffAt c i)
      ∧ ((write_mo c).drop (strOffAt c i)).take (((strsOf c).getD i []).length + 1) =
          (strsOf c).getD i [] ++ [0]

/-- Per-record catalog contribution in the words of claim C2: skip on a
fuzzy flag; with a plural the key-base joins id and id_plural with NUL
and the value joins the defaulted translations for the indices from 0
to the largest present index with NUL in ascending order; without a
plural the key-base is the id and the value is translations[0] or
empty; the context prefixes the key with x04 when present and
non-empty. -/
def recordEntrySpec (r : Record) : Option (Str × Str) :=
  if S "fuzzy" ∈ r.flags then none
  else
    let keyBase : Str :=
      match r.msgid_plural with
      | some pl => r.msgid ++ [Char.ofNat 0] ++ pl
      | none => r.msgid
    let value : Str :=
      match r.msgid_plural with
      | some _ =>
        List.intercalate [Char.ofNat 0]
          ((intRange (maxKeyD (r.msgstr.map Prod.fst) + 1)).map
            (fun i => (dictGet r.msgstr i).getD []))
      | none => (dictGet r.msgstr 0).getD []
    let fullKey : Str :=
      match r.msgctxt with
      | some ctx => if ctx = [] then keyBase else ctx ++ [Char.ofNat 4] ++ keyBase
      | none => keyBase
    some (fullKey, value)

lemma intRange_mem (m i : Int) : i ∈ intRange (m + 1) ↔ 0 ≤ i ∧ i ≤ m := by
  simp only [intRange, List.mem_map, List.mem_range, Int.ofNat_eq_natCast]
  constructor
  · rintro ⟨a, ha, rfl⟩
    omega
  · intro h
    exact ⟨i.toNat, by omega, by omega⟩

lemma intRange_pairwise (n : Int) :
    List.Pairwise (fun a b : Int => a < b) (intRange n) :=
  (List.pairwise_lt_range n.toNat).map Int.ofNat (fun a b h => Int.ofNat_lt.mpr h)

lemma recordEntry_eq_spec (r : Record) : recordEntry r = recordEntrySpec r := by
  unfold recordEntry recordEntrySpec
  by_cases hf : S "fuzzy" ∈ r.flags
  · rw [if_pos hf, if_pos hf]
  · rw [if_neg hf, if_neg hf]
    rcases r.msgid_plural with _ | pl <;> rcases hc : r.msgctxt with _ | ctx <;>
      simp [withCtx, hc]

lemma recordEntry_fuzzy {r : Record} (h : S "fuzzy" ∈ r.flags) :
    recordEntry r = none := by
  unfold recordEntry
  rw [if_pos h]

end ClaimSide

section Claims

/-- Claim C1: for every catalog of size N, the serializer output has
its entries in byte-wise ascending order of the UTF-8-encoded key and
the exact fixed layout: a 28-byte header of seven little-endian 32-bit
fields (magic 0x950412DE, version 0, N, originals offset 28,
translations offset 28 + N*8, hash bucket count 0, hash offset 0),
two N*8-byte tables of 4-byte length and 4-byte offset entries, then
a pool of all keys NUL-terminated in sorted order followed by all
values NUL-terminated in the same order, each table entry holding the
absolute offset of the first byte of its string and the string byte
length without the terminator. -/
theorem layout_c1 (c : List (Str × Str)) (h : (c.map Prod.fst).Nodup) :
    MoLayout c := by
  have hidlen : (idsOf c).length = (sortEntries c).length := by simp [idsOf]
  have hstrlen : (strsOf c).length = (sortEntries c).length := by simp [strsOf]
  have hSO : stringOffset c = 28 + 8 * (idsOf c).length + 8 * (strsOf c).length := by
    unfold stringOffset
    rw [hidlen, hstrlen]
    omega
  refine ⟨?_, ?_, ?_, ?_⟩
  · rw [write_mo_eq_moStream, moStream_take_header _ _ _ _ (headerOf_len c)]
    rfl
  · exact (sortEntries_pairwise_lt h).imp (fun hab => charsLtB_utf8 hab)
  · rw [write_mo_eq_moStream, moStream_drop_SO _ _ _ _ (headerOf_len c) hSO,
      poolOf_eq_flatten (idsOf c), poolOf_eq_flatten (strsOf c)]
  · intro i hi
    have hi1 : i < (idsOf c).length := by rw [hidlen]; exact hi
    have hi2 : i < (strsOf c).length := by rw [hstrlen]; exact hi
    refine ⟨?_, ?_, ?_, ?_, ?_, ?_⟩
    · rw [getD_eq_at _ _ hi1, getD_eq_at _ _ hi]
      simp [idsOf]
    · rw [getD_eq_at _ _ hi2, getD_eq_at _ _ hi]
      simp [strsOf]
    · rw [write_mo_eq_moStream]
      exact moStream_id_table (headerOf c) _ _ _ (headerOf_len c) i hi1
    · rw [write_mo_eq_moStream]
      exact moStream_id_pool (headerOf c) _ _ _ (headerOf_len c) hSO i hi1
    · rw [write_mo_eq_moStream,
        show 28 + 8 * (sortEntries c).length + 8 * i =
          28 + 8 * (idsOf c).length + 8 * i from by rw [hidlen]]
      exact moStream_str_table (headerOf c) _ _ _ (headerOf_len c) i hi2
    · rw [write_mo_eq_moStream]
      exact moStream_str_pool (headerOf c) _ _ _ (headerOf_len c) hSO i hi2

/-- Witness for C1 at a concrete two-entry catalog. -/
theorem layout_c1_witness :
    (([(S "b", S "y"), (S "", S "x")].map Prod.fst).Nodup)
    ∧ MoLayout [(S "b", S "y"), (S "", S "x")] :=
  ⟨by decide, layout_c1 [(S "b", S "y"), (S "", S "x")] (by decide)⟩

/-- Claim C2: every record contributes to the catalog as stated: a
fuzzy record contributes nothing; with a plural the key-base is
id + NUL + id_plural and the value joins the translations for indices
0 to the largest present index (0 when empty), each defaulted to the
empty string, with NUL in ascending index order; without a plural the
key-base is the id and the value is translations[0] or empty; and the
final key is context + x04 + key-base exactly when the context is
present and non-empty. -/
theorem record_c2 (r : Record) :
    recordEntry r = recordEntrySpec r
    ∧ (S "fuzzy" ∈ r.flags → recordEntry r = none)
    ∧ (S "fuzzy" ∈ r.flags → ∀ msgs : List Record,
        assemble (msgs ++ [r]) = assemble msgs)
    ∧ (¬ r.msgstr = [] →
        maxKeyD (r.msgstr.map Prod.fst) ∈ r.msgstr.map Prod.fst)
    ∧ (∀ k ∈ r.msgstr.map Prod.fst, k ≤ maxKeyD (r.msgstr.map Prod.fst))
    ∧ (r.msgstr = [] → maxKeyD (r.msgstr.map Prod.fst) = 0)
    ∧ (∀ i : Int, i ∈ intRange (maxKeyD (r.msgstr.map Prod.fst) + 1) ↔
        0 ≤ i ∧ i ≤ maxKeyD (r.msgstr.map Prod.fst))
    ∧ List.Pairwise (fun a b : Int => a < b)
        (intRange (maxKeyD (r.msgstr.map Prod.fst) + 1)) := by
  refine ⟨recordEntry_eq_spec r, fun hf => recordEntry_fuzzy hf, ?_, ?_, ?_, ?_,
    fun i => intRange_mem _ i, intRange_pairwise _⟩
  · intro hf msgs
    unfold assemble
    rw [List.foldl_append]
    simp [recordEntry_fuzzy hf]
  · intro hne
    apply maxKeyD_mem
    intro hmap
    exact hne (List.map_eq_nil.mp hmap)
  · exact maxKeyD_le
  · intro he
    rw [he]
    rfl

/-- Witness for C2 at a concrete plural record with a context and a
gap in the translation indices. -/
theorem record_c2_witness :
    recordEntry ⟨some (S "c"), S "i", some (S "p"), [(2, S "two"), (0, S "zero")], []⟩ =
      recordEntrySpec ⟨some (S "c"), S "i", some (S "p"), [(2, S "two"), (0, S "zero")], []⟩ :=
  (record_c2 ⟨some (S "c"), S "i", some (S "p"), [(2, S "two"), (0, S "zero")], []⟩).1

/-- Claim C3 counterexample: the source accepts a negative bracketed
index, because Python int() parses an optional sign; on the input
msgid "a" / msgstr[-1] "x" parsing succeeds, storing the translation
at index -1 instead of failing with a fatal format error. -/
theorem msgstr_c3_counterexample :
    parsePoMsgs [S "msgid \x22a\x22", S "msgstr[-1] \x22x\x22"] =
      some [⟨none, S "a", none, [(-1, S "x")], []⟩]
    ∧ parse_po [S "msgid \x22a\x22", S "msgstr[-1] \x22x\x22"] =
        some [(S "a", []), ([], [])] := by
  constructor
  · rfl
  · rfl

/-- Claim C3 as amended: for every line starting with msgstr[, if the
text between the bracket and the first closing bracket is not a valid
Python integer literal (an optionally signed decimal, so negative
indices are accepted), the parse fails fatally; when it is valid, the
decoded remainder after the bracket is stored at translations[index]
and the active target becomes that translation index. -/
theorem msgstr_c3_amended (st : PState) (msgs : List Record) (line : Str)
    (h : startsWithS (S "msgstr[") line = true) :
    (pyIntOpt 10 (brIndexText line) = none → step (st, msgs) line = none)
    ∧ ∀ n : Int, pyIntOpt 10 (brIndexText line) = some n →
        (parseQuoted (brRest line) = none → step (st, msgs) line = none)
        ∧ ∀ v : Str, parseQuoted (brRest line) = some v →
            step (st, msgs) line =
              some ({ st with msgstr := dictInsert st.msgstr n v,
                              active := some (Target.tstr n) }, msgs) := by
  have e := step_msgstr_br st msgs line h
  refine ⟨?_, ?_⟩
  · intro hn
    rw [e, hn]
  · intro n hn
    refine ⟨?_, ?_⟩
    · intro hv
      rw [e, hn, hv]
    · intro v hv
      rw [e, hn, hv]

/-- Witness for the amended C3 at a concrete line with spaces inside
the brackets. -/
theorem msgstr_c3_amended_witness :
    step (initState, []) (S "msgstr[ 2 ] \x22y\x22") =
      some ({ initState with msgstr := dictInsert initState.msgstr 2 (S "y"),
                             active := some (Target.tstr 2) }, []) :=
  ((msgstr_c3_amended initState [] (S "msgstr[ 2 ] \x22y\x22") (by decide)).2
    2 (by decide)).2 (S "y") (by decide)

/-- Claim C4: the escape decoder rewrites each recognised escape in a
single leftmost-first non-overlapping pass: backslash-n, t, r to the
control characters, doubled backslash to a backslash, escaped quote to
a quote, one to three octal digits to the code point read in base 8
(taking as many octal digits as follow, up to three), x with exactly
two hex digits to the code point read in base 16; every other
backslash sequence is left exactly as written and no input fails; a
character other than a backslash is copied and decoding continues on
the rest. -/
theorem unescape_c4 (r : Str) :
    unescape ('\\' :: 'n' :: r) = '\n' :: unescape r
    ∧ unescape ('\\' :: 't' :: r) = '\t' :: unescape r
    ∧ unescape ('\\' :: 'r' :: r) = '\r' :: unescape r
    ∧ unescape ('\\' :: '\\' :: r) = '\\' :: unescape r
    ∧ unescape ('\\' :: '\x22' :: r) = '\x22' :: unescape r
    ∧ (∀ d1 d2 d3 : Char, isOctD d1 = true → isOctD d2 = true → isOctD d3 = true →
        unescape ('\\' :: d1 :: d2 :: d3 :: r) =
          Char.ofNat (64 * (d1.toNat - 48) + 8 * (d2.toNat - 48) + (d3.toNat - 48)) ::
            unescape r)
    ∧ (∀ d1 d2 : Char, isOctD d1 = true → isOctD d2 = true →
        (∀ c, r.head? = some c → isOctD c = false) →
        unescape ('\\' :: d1 :: d2 :: r) =
          Char.ofNat (8 * (d1.toNat - 48) + (d2.toNat - 48)) :: unescape r)
    ∧ (∀ d1 : Char, isOctD d1 = true →
        (∀ c, r.head? = some c → isOctD c = false) →
        unescape ('\\' :: d1 :: r) = Char.ofNat (d1.toNat - 48) :: unescape r)
    ∧ (∀ a b : Char, isHexD a = true → isHexD b = true →
        unescape ('\\' :: 'x' :: a :: b :: r) =
          Char.ofNat (16 * hexVal a + hexVal b) :: unescape r)
    ∧ (escStarts r = false → unescape ('\\' :: r) = '\\' :: unescape r)
    ∧ (∀ c : Char, ¬ c = '\\' → unescape (c :: r) = c :: unescape r)
    ∧ (unesc r).isSome = true := by
  refine ⟨unescape_n r, unescape_t r, unescape_r r, unescape_bs r, unescape_quote r,
    fun d1 d2 d3 h1 h2 h3 => unescape_oct3 h1 h2 h3 r,
    fun d1 d2 h1 h2 hr => unescape_oct2 h1 h2 r hr,
    fun d1 h1 hr => unescape_oct1 h1 r hr,
    fun a b ha hb => unescape_hex ha hb r,
    fun hp => unescape_pass r hp,
    fun c hc => unescape_cons r hc,
    unesc_isSome r⟩

/-- Witness for C4 on a named escape and an unrecognised sequence. -/
theorem unescape_c4_witness :
    unescape ['\\', 'n'] = ['\n'] ∧ unescape ['\\', 'q'] = ['\\', 'q'] := by
  constructor
  · exact (unescape_c4 []).1
  · have h := (unescape_c4 ['q']).2.2.2.2.2.2.2.2.2.1 (by decide)
    rw [h]
    decide

/-- Claim C5: flush discards everything silently when id is unset,
otherwise appends the completed record with all accumulated fields;
both ways every field and the active target reset; and end of input
performs exactly the one implicit flush on the final state. -/
theorem flush_c5 (st : PState) (msgs : List Record) :
    (st.msgid = none → flushSM st msgs = (initState, msgs))
    ∧ (∀ i : Str, st.msgid = some i →
        flushSM st msgs =
          (initState, msgs ++ [⟨st.msgctxt, i, st.msgid_plural, st.msgstr, st.flags⟩]))
    ∧ (∀ lines : List Str, ∀ p : PState × List Record,
        processLines lines = some p →
        parsePoMsgs lines = some (flushSM p.1 p.2).2) := by
  refine ⟨fun h => flushSM_none st msgs h, fun i h => flushSM_some st msgs i h, ?_⟩
  intro lines p hp
  unfold parsePoMsgs
  rw [hp]
  rfl

/-- Witness for C5: a flush with an unset id discards the pending
context and flags, and one with a set id emits the record. -/
theorem flush_c5_witness :
    flushSM { initState with msgctxt := some (S "c"), flags := [S "fuzzy"] } [] =
      (initState, [])
    ∧ flushSM { initState with msgid := some (S "a") } [] =
        (initState, [⟨none, S "a", none, [], []⟩]) := by
  constructor
  · exact (flush_c5 { initState with msgctxt := some (S "c"), flags := [S "fuzzy"] } []).1 rfl
  · exact (flush_c5 { initState with msgid := some (S "a") } []).2.1 (S "a") rfl

/-- Claim C6: a line whose trimmed form starts with a double quote and
matches no earlier rule appends the decoded literal, by concatenation
and without a separator, to the field the active target names, and is
ignored when no target is active. -/
theorem continuation_c6 (st : PState) (msgs : List Record) (line v : Str)
    (hq : (lstripWs line).head? = some '\x22')
    (hv : parseQuoted line = some v) :
    step (st, msgs) line = some (contAppend st v, msgs)
    ∧ (st.active = none → contAppend st v = st)
    ∧ (st.active = some Target.tctxt →
        contAppend st v = { st with msgctxt := some (st.msgctxt.getD [] ++ v) })
    ∧ (st.active = some Target.tid →
        contAppend st v = { st with msgid := some (st.msgid.getD [] ++ v) })
    ∧ (st.active = some Target.tplural →
        contAppend st v = { st with msgid_plural := some (st.msgid_plural.getD [] ++ v) })
    ∧ (∀ i : Int, st.active = some (Target.tstr i) →
        contAppend st v = { st with
          msgstr := dictInsert st.msgstr i ((dictGet st.msgstr i).getD [] ++ v) }) := by
  refine ⟨step_continuation st msgs line v hq hv, ?_, ?_, ?_, ?_, ?_⟩ <;>
    intros <;> simp_all [contAppend]

/-- Witness for C6: continuing msgid Part1 with the line quoting Part2
yields the concatenated id Part1Part2. -/
theorem continuation_c6_witness :
    step ({ initState with msgid := some (S "Part1"), active := some Target.tid }, [])
        (S "\x22Part2\x22") =
      some ({ initState with
          msgid := some (S "Part1Part2"), active := some Target.tid }, []) := by
  have h := continuation_c6
    { initState with msgid := some (S "Part1"), active := some Target.tid }
    [] (S "\x22Part2\x22") (S "Part2") (by decide) (by decide)
  rw [h.1]
  rfl

/-- Claim C7: every successfully assembled catalog is a finite map
with unique keys that contains the empty key, defaulted to the empty
value when never set; and a lookup returns the value of the last
non-skipped record that produced the key, so the later record wins. -/
theorem catalog_c7 (lines : List Str) (cat : List (Str × Str))
    (h : parse_po lines = some cat) :
    (cat.map Prod.fst).Nodup
    ∧ [] ∈ cat.map Prod.fst
    ∧ ∀ msgs : List Record, parsePoMsgs lines = some msgs →
        ∀ k : Str,
          dictGet cat k =
            match (contribs msgs).reverse.find? (fun kv => kv.1 = k) with
            | some kv => some kv.2
            | none => if k = [] then some [] else none := by
  rcases e : parsePoMsgs lines with _ | msgs
  · unfold parse_po at h
    rw [e] at h
    exact Option.noConfusion h
  · unfold parse_po at h
    rw [e] at h
    have hc : cat = assemble msgs := by
      injection h with h2
      exact h2.symm
    subst hc
    have hA : assemble msgs =
        setdefaultD ((contribs msgs).foldl
          (fun cat kv => dictInsert cat kv.1 kv.2) []) [] [] := by
      unfold assemble
      rw [foldl_contribs]
    refine ⟨?_, ?_, ?_⟩
    · rw [hA]
      exact setdefaultD_nodup _ _ _ (foldl_nodup _ [] (by simp))
    · have hg : ¬ dictGet (assemble msgs) [] = none := by
        rw [hA, setdefaultD_get]
        rcases hd : dictGet ((contribs msgs).foldl
            (fun cat kv => dictInsert cat kv.1 kv.2) []) [] with _ | w <;>
          rw [hd] <;> simp
      by_cases hmem : [] ∈ (assemble msgs).map Prod.fst
      · exact hmem
      · exact absurd ((dictGet_none_iff _ _).mpr hmem) hg
    · intro msgs2 hm k
      injection hm with hm2
      subst hm2
      rw [hA, setdefaultD_get, dictGet_foldl]
      rcases f : (contribs msgs).reverse.find? (fun kv => kv.1 = k) with _ | kv
      · rw [f]
        rfl
      · rw [f]

/-- Witness for C7 on a two-line input producing one explicit entry
plus the defaulted empty key. -/
theorem catalog_c7_witness :
    parse_po [S "msgid \x22a\x22", S "msgstr \x22x\x22"] =
      some [(S "a", S "x"), ([], [])]
    ∧ (([(S "a", S "x"), ([], [])].map Prod.fst).Nodup)
    ∧ [] ∈ [(S "a", S "x"), ([], [])].map Prod.fst := by
  refine ⟨by rfl, ?_, ?_⟩
  · exact (catalog_c7 [S "msgid \x22a\x22", S "msgstr \x22x\x22"]
      [(S "a", S "x"), ([], [])] (by rfl)).1
  · exact (catalog_c7 [S "msgid \x22a\x22", S "msgstr \x22x\x22"]
      [(S "a", S "x"), ([], [])] (by rfl)).2.1

/-- Claim C8: a parse failure aborts the compilation before
serialization and produces no output bytes; in particular one bad line
after any successfully processed lines makes the whole parse, and with
it the compilation, fail, whatever comes after it. -/
theorem failfast_c8 (lines : List Str) :
    (parse_po lines = none → compile lines = none)
    ∧ (parse_po lines = none ↔ processLines lines = none)
    ∧ ∀ pre : List Str, ∀ line : Str, ∀ post : List Str,
        ∀ acc : PState × List Record,
        processLines pre = some acc → step acc line = none →
        processLines (pre ++ line :: post) = none
        ∧ parse_po (pre ++ line :: post) = none
        ∧ compile (pre ++ line :: post) = none := by
  refine ⟨?_, ?_, ?_⟩
  · intro h
    unfold compile
    rw [h]
    rfl
  · unfold parse_po parsePoMsgs
    rcases processLines lines with _ | p <;> simp
  · intro pre line post acc hp hs
    have hnone : processLines (pre ++ line :: post) = none := by
      unfold processLines at hp ⊢
      rw [List.foldlM_append, hp]
      simp [List.foldlM_cons, hs]
    refine ⟨hnone, ?_, ?_⟩
    · unfold parse_po parsePoMsgs
      rw [hnone]
      rfl
    · unfold compile parse_po parsePoMsgs
      rw [hnone]
      rfl

/-- Witness for C8: the malformed directive msgid Hello, whose operand
has no quotes, makes the parse and the compilation produce none. -/
theorem failfast_c8_witness :
    step (initState, []) (S "msgid Hello") = none
    ∧ processLines [S "msgid Hello"] = none
    ∧ compile [S "msgid Hello"] = none := by
  have h := (failfast_c8 [S "msgid Hello"]).2.2 [] (S "msgid Hello") []
    (initState, []) rfl (by decide)
  exact ⟨by decide, h.1, h.2.2⟩

/-- Claim C9: escape resolution is total: decoding succeeds on every
input string, and on every body the matcher can hand over — one to
three octal digits read in base 8, or x with exactly two hexadecimal
digits read in base 16 — the numeric conversion and the replacement
both succeed, so the resolution error branch is unreachable. -/
theorem total_c9 :
    (∀ s : Str, (unesc s).isSome = true)
    ∧ (∀ s : Str, unesc s = some (unescape s))
    ∧ (∀ c : Char, isOctD c = true → (pyIntOpt 8 [c]).isSome = true)
    ∧ (∀ c d : Char, isOctD c = true → isOctD d = true →
        (pyIntOpt 8 [c, d]).isSome = true)
    ∧ (∀ c d e : Char, isOctD c = true → isOctD d = true → isOctD e = true →
        (pyIntOpt 8 [c, d, e]).isSome = true)
    ∧ (∀ a b : Char, isHexD a = true → isHexD b = true →
        (pyIntOpt 16 [a, b]).isSome = true)
    ∧ (∀ c : Char, isOctD c = true → (replOfGroup [c]).isSome = true)
    ∧ (∀ c d : Char, isOctD c = true → isOctD d = true →
        (replOfGroup [c, d]).isSome = true)
    ∧ (∀ c d e : Char, isOctD c = true → isOctD d = true → isOctD e = true →
        (replOfGroup [c, d, e]).isSome = true)
    ∧ (∀ a b : Char, isHexD a = true → isHexD b = true →
        (replOfGroup ['x', a, b]).isSome = true) := by
  refine ⟨unesc_isSome, unesc_eq_some, ?_, ?_, ?_, ?_, ?_, ?_, ?_, ?_⟩
  · intro c h
    rw [pyIntOpt_oct1 h]
    rfl
  · intro c d hc hd
    rw [pyIntOpt_oct2 hc hd]
    rfl
  · intro c d e hc hd he
    rw [pyIntOpt_oct3 hc hd he]
    rfl
  · intro a b ha hb
    rw [pyIntOpt_hex2 ha hb]
    rfl
  · intro c h
    rw [replOfGroup_oct1 h]
    rfl
  · intro c d hc hd
    rw [replOfGroup_oct2 hc hd]
    rfl
  · intro c d e hc hd he
    rw [replOfGroup_oct3 hc hd he]
    rfl
  · intro a b ha hb
    rw [replOfGroup_hex ha hb]
    rfl

/-- Witness for C9: decoding succeeds on a string made of boundary
escapes, and the octal and hexadecimal conversions succeed at sample
digits. -/
theorem total_c9_witness :
    (unesc (S "\\777\\xff tail")).isSome = true
    ∧ (pyIntOpt 8 ['7']).isSome = true
    ∧ (replOfGroup ['x', 'f', 'f']).isSome = true := by
  refine ⟨total_c9.1 (S "\\777\\xff tail"), ?_, ?_⟩
  · exact total_c9.2.2.1 '7' (by decide)
  · exact total_c9.2.2.2.2.2.2.2.2.2 'f' 'f' (by decide) (by decide)

/-- Claim C10: a non-blank line starting with none of the comment and
directive keywords, whose left-trimmed form does not start with a
double quote, is skipped silently: the step succeeds and every
component of the parser state and the emitted record sequence is
unchanged. -/
theorem skip_c10 (st : PState) (msgs : List Record) (line : Str)
    (hblank : ¬ stripWs line = [])
    (hh : startsWithS (S "#") line = false)
    (hc : startsWithS (S "msgctxt") line = false)
    (hi : startsWithS (S "msgid") line = false)
    (hs : startsWithS (S "msgstr") line = false)
    (hq : ¬ (lstripWs line).head? = some '\x22') :
    step (st, msgs) line = some (st, msgs) :=
  step_other st msgs line hblank hh hc hi hs hq

/-- Witness for C10 at the unknown directive line domain x. -/
theorem skip_c10_witness :
    step (initState, []) (S "domain x") = some (initState, []) :=
  skip_c10 initState [] (S "domain x") (by decide) (by decide) (by decide)
    (by decide) (by decide) (by decide)

end Claims

end Msgfmt
